import Mathlib

/-!
Verification of the d20 dice-expression engine against its specification.

The Python sources (`d20/expression.py`, `d20/dice.py`, `d20/diceast.py`,
`d20/utils.py`) are shallowly embedded below: numeric values are rationals
(Python int-or-float), mutation becomes explicit state passing, the RNG is an
injectable stream of raw natural-number draws (`RState.rng`), and fallible
code returns `Except RollErr`.
-/

set_option linter.unusedVariables false

namespace D20

/-- Numeric values flowing through an evaluated expression tree
(Python int-or-float, modelled as rationals). -/
abbrev Value := ℚ

/-- errors.py: the library's error kinds (the `RollError` subclasses that
evaluation can raise). -/
inductive RollErr where
  | syntaxErr
  | valueErr
  | tooManyRolls
deriving DecidableEq, Repr

/-- expression.py `Literal`: a value history (updates append, so `mi`/`ma`
keep prior values), an exploded flag and a kept flag. -/
structure Lit where
  values : List Value
  exploded : Bool := false
  kept : Bool := true
deriving DecidableEq, Repr

/-- expression.py `Literal.number`: the last element of the value history. -/
def Lit.number (l : Lit) : Value := l.values.getLastD 0

/-- `Number.total`: the number if kept, else 0. -/
def Lit.total (l : Lit) : Value := if l.kept then l.number else 0

/-- `Number.drop`: mark not kept. -/
def Lit.dropIt (l : Lit) : Lit := { l with kept := false }

/-- expression.py `Literal.update`: append to the value history. -/
def Lit.update (l : Lit) (v : Value) : Lit := { l with values := l.values ++ [v] }

/-- expression.py `Literal.explode`. -/
def Lit.explodeIt (l : Lit) : Lit := { l with exploded := true }

/-- A die size: an integer or the percentile sentinel `'%'`. -/
inductive DieSize where
  | n (k : Int)
  | percent
deriving DecidableEq, Repr

/-- expression.py `Die`: a single die with its roll history. -/
structure Die where
  size : DieSize
  values : List Lit
  kept : Bool := true
deriving DecidableEq, Repr

/-- expression.py `Die.number`: `values[-1].total`. -/
def Die.number (d : Die) : Value := (d.values.getLastD { values := [] }).total

/-- `Number.total` for a `Die`. -/
def Die.total (d : Die) : Value := if d.kept then d.number else 0

/-- `Number.drop` for a `Die`. -/
def Die.dropIt (d : Die) : Die := { d with kept := false }

/-- dice.py `RollContext`: the roll budget. -/
structure RollContext where
  maxRolls : Nat := 1000
  rolls : Nat := 0
deriving DecidableEq, Repr

/-- Evaluation state: the injectable RNG stream (`rng i` is the `i`-th raw
uniform draw, consumed via a cursor `idx`) plus the roll context. -/
structure RState where
  rng : Nat → Nat
  idx : Nat := 0
  ctx : RollContext := {}

/-- Stateful fallible computations (Python methods that may roll dice and
raise). -/
abbrev RollM (α : Type) := RState → Except RollErr (α × RState)

/-- dice.py `RollContext.count_roll`: increment the counter, raise
`TooManyRolls` when it exceeds the budget. -/
def countRoll (n : Nat) (s : RState) : Except RollErr (Unit × RState) :=
  let rolls := s.ctx.rolls + n
  if rolls > s.ctx.maxRolls then .error .tooManyRolls
  else .ok ((), { s with ctx := { s.ctx with rolls := rolls } })

/-- `random.randrange(k)`: the next raw stream value reduced into `[0, k)`. -/
def RState.draw (s : RState) (k : Nat) : Nat × RState :=
  (s.rng s.idx % k, { s with idx := s.idx + 1 })

/-- expression.py `Die._add_roll`: size check, budget count, then one draw —
`randrange(size) + 1` for an integer size, `randrange(0, 100, 10)` for `'%'`. -/
def Die.addRoll (d : Die) (s : RState) : Except RollErr (Die × RState) :=
  match d.size with
  | .n k =>
    if k < 1 then .error .valueErr
    else
      match countRoll 1 s with
      | .error e => .error e
      | .ok (_, s1) =>
        let (r, s2) := s1.draw k.toNat
        .ok ({ d with values := d.values ++ [{ values := [((r + 1 : Nat) : Value)] }] }, s2)
  | .percent =>
    match countRoll 1 s with
    | .error e => .error e
    | .ok (_, s1) =>
      let (r, s2) := s1.draw 10
      .ok ({ d with values := d.values ++ [{ values := [((10 * r : Nat) : Value)] }] }, s2)

/-- expression.py `Die.new`: a fresh die that has rolled once. -/
def Die.new (size : DieSize) (s : RState) : Except RollErr (Die × RState) :=
  Die.addRoll { size := size, values := [] } s

/-- expression.py `Die.reroll`: drop the last literal and roll again. -/
def Die.reroll (d : Die) (s : RState) : Except RollErr (Die × RState) :=
  Die.addRoll { d with values := d.values.dropLast ++ (d.values.getLast?.map Lit.dropIt).toList } s

/-- expression.py `Die.explode`: mark the last literal exploded (the enclosing
operator appends the extra die). -/
def Die.explodeIt (d : Die) : Die :=
  { d with values := d.values.dropLast ++ (d.values.getLast?.map Lit.explodeIt).toList }

/-- expression.py `Die.force_value`: append to the last literal's history. -/
def Die.forceValue (d : Die) (v : Value) : Die :=
  { d with values := d.values.dropLast ++ (d.values.getLast?.map (Lit.update · v)).toList }

/-- The die list drawn by `Dice.new`'s comprehension, leftmost die first. -/
def rollDice (num : Nat) (size : DieSize) (s : RState) :
    Except RollErr (List Die × RState) :=
  match num with
  | 0 => .ok ([], s)
  | m + 1 =>
    match Die.new size s with
    | .error e => .error e
    | .ok (d, s1) =>
      match rollDice m size s1 with
      | .error e => .error e
      | .ok (ds, s2) => .ok (d :: ds, s2)

/-- expression.py `Dice`: a set of `Die`. -/
structure Dice where
  num : Nat
  size : DieSize
  values : List Die
  kept : Bool := true
deriving DecidableEq, Repr

/-- expression.py `Dice.new`. -/
def Dice.new (num : Nat) (size : DieSize) (s : RState) :
    Except RollErr (Dice × RState) :=
  match rollDice num size s with
  | .error e => .error e
  | .ok (ds, s') => .ok ({ num := num, size := size, values := ds }, s')

/-- `Number.keptset` for `Dice` (its `set` is `values`). -/
def Dice.keptset (dc : Dice) : List Die := dc.values.filter (·.kept)

/-- `Number.number` for `Dice`: sum of the kept dice's numbers. -/
def Dice.number (dc : Dice) : Value := (dc.keptset.map Die.number).sum

/-- `Number.total` for `Dice`. -/
def Dice.total (dc : Dice) : Value := if dc.kept then dc.number else 0

/-- expression.py `Dice.roll_another`: append a fresh die. -/
def Dice.rollAnother (dc : Dice) (s : RState) : Except RollErr (Dice × RState) :=
  match Die.new dc.size s with
  | .error e => .error e
  | .ok (d, s') => .ok ({ dc with values := dc.values ++ [d] }, s')

/-! ## Set selectors and set operators

Python set operators work on the *objects* in `target.set`; object identity is
modelled by the element's index in the list. A selection is therefore a
duplicate-free list of indices. -/

/-- The `Number` interface that set selectors and the generic `k`/`p`
operators use: `total`, `kept` and `drop`. -/
class NumberLike (α : Type) where
  numberv : α → Value
  kept : α → Bool
  dropIt : α → α
  kept_dropIt : ∀ x, kept (dropIt x) = false

/-- `Number.total` derived from the interface. -/
def NumberLike.total [NumberLike α] (x : α) : Value :=
  if NumberLike.kept x then NumberLike.numberv x else 0

instance litNL : NumberLike Lit where
  numberv := Lit.number
  kept := Lit.kept
  dropIt := Lit.dropIt
  kept_dropIt _ := rfl

instance dieNL : NumberLike Die where
  numberv := Die.number
  kept := Die.kept
  dropIt := Die.dropIt
  kept_dropIt _ := rfl

/-- Total of the element at index `i` (0 when out of range). -/
def totalAt [NumberLike α] (xs : List α) (i : Nat) : Value :=
  match xs.get? i with
  | some x => NumberLike.total x
  | none => 0

/-- Kept flag of the element at index `i` (false when out of range). -/
def keptAt [NumberLike α] (xs : List α) (i : Nat) : Bool :=
  match xs.get? i with
  | some x => NumberLike.kept x
  | none => false

/-- The indices of `target.keptset` inside `target.set`, in list order. -/
def keptIdx [NumberLike α] (xs : List α) : List Nat :=
  (List.range xs.length).filter (fun i => keptAt xs i)

/-- Insert into a list sorted by the strict comparator `lt`. -/
def insort (lt : Nat → Nat → Bool) (x : Nat) : List Nat → List Nat
  | [] => [x]
  | y :: ys => if lt x y then x :: y :: ys else y :: insort lt x ys

/-- Insertion sort by the strict comparator `lt`. -/
def isort (lt : Nat → Nat → Bool) : List Nat → List Nat
  | [] => []
  | x :: xs => insort lt x (isort lt xs)

/-- Key order of Python's stable `sorted(keptset, key=total)`: ascending
total, ties broken by original position. -/
def ltKeyAsc [NumberLike α] (xs : List α) (i j : Nat) : Bool :=
  totalAt xs i < totalAt xs j || (totalAt xs i = totalAt xs j && i < j)

/-- Key order of `sorted(keptset, key=total, reverse=True)` (stable, so ties
stay in original position order). -/
def ltKeyDesc [NumberLike α] (xs : List α) (i j : Nat) : Bool :=
  totalAt xs j < totalAt xs i || (totalAt xs i = totalAt xs j && i < j)

/-- Selector categories: `l`, `h`, `<`, `>` (a bare number has none). -/
inductive SelCat where
  | l | h | lt | gt
deriving DecidableEq, Repr

/-- expression.py `SetSelector`. The grammar's selector number is a
nonnegative `INTEGER`. -/
structure SetSelector where
  cat : Option SelCat
  num : Nat
deriving DecidableEq, Repr

/-- expression.py `SetSelector.select`: pick from the target's keptset, then
truncate the batch to `max_targets` if supplied. -/
def SetSelector.sel [NumberLike α] (sl : SetSelector) (xs : List α)
    (maxT : Option Nat) : List Nat :=
  let chosen : List Nat :=
    match sl.cat with
    | some .l => (isort (ltKeyAsc xs) (keptIdx xs)).take sl.num
    | some .h => (isort (ltKeyDesc xs) (keptIdx xs)).take sl.num
    | some .lt => (keptIdx xs).filter (fun i => decide (totalAt xs i < (sl.num : Value)))
    | some .gt => (keptIdx xs).filter (fun i => decide ((sl.num : Value) < totalAt xs i))
    | none => (keptIdx xs).filter (fun i => decide (totalAt xs i = (sl.num : Value)))
  match maxT with
  | some m => chosen.take m
  | none => chosen

/-- Union of index selections preserving first-occurrence order (Python's
`set.update` tracked as a duplicate-free list). -/
def unionIdx (a b : List Nat) : List Nat :=
  a ++ b.filter (fun i => !(a.contains i))

/-- Iteration of expression.py `SetOperator.select` over the selectors. -/
def opSelectGo [NumberLike α] (xs : List α) (maxT : Option Nat) :
    List SetSelector → List Nat → List Nat
  | [], out => out
  | sl :: rest, out =>
    match maxT with
    | none => opSelectGo xs maxT rest (unionIdx out (sl.sel xs none))
    | some m =>
      let batch := m - out.length
      if batch = 0 then out
      else opSelectGo xs maxT rest (unionIdx out (sl.sel xs (some batch)))

/-- expression.py `SetOperator.select`: union the selections of each
selector, truncating each batch to stay under `max_targets`. -/
def opSelect [NumberLike α] (sels : List SetSelector) (xs : List α)
    (maxT : Option Nat) : List Nat :=
  opSelectGo xs maxT sels []

/-- Replace the element at an index. -/
def updateAt (f : α → α) : Nat → List α → List α
  | _, [] => []
  | 0, x :: xs => f x :: xs
  | i + 1, x :: xs => x :: updateAt f i xs

/-- The loop body of expression.py `SetOperator.keep`: iterate over a
snapshot of `target.keptset`, re-evaluating `select` on the current target
before each drop (as the Python loop does). -/
def keepLoop [NumberLike α] (sels : List SetSelector) :
    List Nat → List α → List α
  | [], xs => xs
  | i :: rest, xs =>
    let xs' :=
      if (opSelect sels xs none).contains i then xs
      else updateAt NumberLike.dropIt i xs
    keepLoop sels rest xs'

/-- expression.py `SetOperator.keep`: drop every element of `target.keptset`
not in `select(target)`. -/
def keepL [NumberLike α] (sels : List SetSelector) (xs : List α) : List α :=
  keepLoop sels (keptIdx xs) xs

/-- expression.py `SetOperator.drop`: drop every element of
`select(target)` (the selection is computed once). -/
def dropL [NumberLike α] (sels : List SetSelector) (xs : List α) : List α :=
  let is := opSelect sels xs none
  xs.mapIdx (fun i x => if is.contains i then NumberLike.dropIt x else x)

/-! ## Dice-only operators

`rr`/`e` are open-ended loops; they terminate because every iteration draws at
least one new die and each draw increments the roll counter, which is bounded
by the budget. That argument is the termination measure below. -/

theorem countRoll_ok {n : Nat} {s : RState} {u : Unit} {s' : RState}
    (h : countRoll n s = .ok (u, s')) :
    s'.ctx.maxRolls = s.ctx.maxRolls ∧ s'.ctx.rolls = s.ctx.rolls + n ∧
    s'.ctx.rolls ≤ s.ctx.maxRolls := by
  unfold countRoll at h
  by_cases hc : s.ctx.rolls + n > s.ctx.maxRolls
  · simp [hc] at h
  · simp [hc] at h
    obtain ⟨-, rfl⟩ := h
    refine ⟨rfl, rfl, ?_⟩
    show s.ctx.rolls + n ≤ s.ctx.maxRolls
    omega

theorem addRoll_ok {d : Die} {s : RState} {d' : Die} {s' : RState}
    (h : Die.addRoll d s = .ok (d', s')) :
    s'.ctx.maxRolls = s.ctx.maxRolls ∧ s'.ctx.rolls = s.ctx.rolls + 1 ∧
    s'.ctx.rolls ≤ s.ctx.maxRolls := by
  unfold Die.addRoll at h
  split at h
  · split at h
    · exact Except.noConfusion h
    · rcases hcr : countRoll 1 s with e | ⟨u, s1⟩ <;> rw [hcr] at h
      · exact Except.noConfusion h
      · simp only [RState.draw, Except.ok.injEq, Prod.mk.injEq] at h
        obtain ⟨-, rfl⟩ := h
        have hc := countRoll_ok hcr
        exact ⟨hc.1, hc.2.1, hc.2.2⟩
  · rcases hcr : countRoll 1 s with e | ⟨u, s1⟩ <;> rw [hcr] at h
    · exact Except.noConfusion h
    · simp only [RState.draw, Except.ok.injEq, Prod.mk.injEq] at h
      obtain ⟨-, rfl⟩ := h
      have hc := countRoll_ok hcr
      exact ⟨hc.1, hc.2.1, hc.2.2⟩

theorem dieNew_ok {sz : DieSize} {s : RState} {d' : Die} {s' : RState}
    (h : Die.new sz s = .ok (d', s')) :
    s'.ctx.maxRolls = s.ctx.maxRolls ∧ s'.ctx.rolls = s.ctx.rolls + 1 ∧
    s'.ctx.rolls ≤ s.ctx.maxRolls :=
  addRoll_ok h

/-- Reroll the die at one index of the target (index from a selection, hence
in range; out-of-range indices are a no-op). -/
def rerollAt (i : Nat) (ds : List Die) (s : RState) :
    Except RollErr (List Die × RState) :=
  match ds.get? i with
  | none => .ok (ds, s)
  | some d =>
    match d.reroll s with
    | .error e => .error e
    | .ok (d', s') => .ok (ds.set i d', s')

/-- The inner `for die in to_reroll: die.reroll()` of
expression.py `SetOperator.reroll`, iterating the selection. -/
def rerollAll : List Nat → List Die → RState → Except RollErr (List Die × RState)
  | [], ds, s => .ok (ds, s)
  | i :: rest, ds, s =>
    match rerollAt i ds s with
    | .error e => .error e
    | .ok (ds', s') => rerollAll rest ds' s'

theorem rerollAt_ok {i : Nat} {ds : List Die} {s : RState} {ds' : List Die}
    {s' : RState} (hi : i < ds.length) (h : rerollAt i ds s = .ok (ds', s')) :
    s'.ctx.maxRolls = s.ctx.maxRolls ∧ s'.ctx.rolls = s.ctx.rolls + 1 ∧
    s'.ctx.rolls ≤ s.ctx.maxRolls ∧ ds'.length = ds.length := by
  unfold rerollAt at h
  split at h
  · rename_i hg
    rw [List.get?_eq_none] at hg
    omega
  · rename_i d hg
    split at h
    · exact Except.noConfusion h
    · rename_i d2 s2 hr
      simp only [Except.ok.injEq, Prod.mk.injEq] at h
      obtain ⟨rfl, rfl⟩ := h
      have hc := addRoll_ok hr
      exact ⟨hc.1, hc.2.1, hc.2.2, by simp⟩

theorem rerollAll_ok : ∀ {is : List Nat} {ds : List Die} {s : RState}
    {ds' : List Die} {s' : RState}, (∀ i ∈ is, i < ds.length) →
    rerollAll is ds s = .ok (ds', s') →
    s'.ctx.maxRolls = s.ctx.maxRolls ∧ s'.ctx.rolls = s.ctx.rolls + is.length ∧
    ds'.length = ds.length ∧ (is ≠ [] → s'.ctx.rolls ≤ s.ctx.maxRolls) := by
  intro is
  induction is with
  | nil =>
    intro ds s ds' s' _ h
    simp [rerollAll] at h
    obtain ⟨rfl, rfl⟩ := h
    simp
  | cons i rest ih =>
    intro ds s ds' s' hin h
    simp only [rerollAll] at h
    rcases h1 : rerollAt i ds s with e | ⟨ds1, s1⟩ <;> rw [h1] at h
    · simp at h
    · have f1 := rerollAt_ok (hin i (by simp)) h1
      have f2 := ih (fun j hj => f1.2.2.2 ▸ hin j (by simp [hj])) h
      refine ⟨by omega, by simp; omega, by omega, fun _ => ?_⟩
      rcases hrest : rest with - | ⟨j, tl⟩
      · subst hrest
        simp [rerollAll] at h
        obtain ⟨-, rfl⟩ := h
        omega
      · have := f2.2.2.2 (by simp [hrest])
        omega

theorem mem_insort {lt : Nat → Nat → Bool} {x a : Nat} :
    ∀ {l : List Nat}, a ∈ insort lt x l ↔ a = x ∨ a ∈ l := by
  intro l
  induction l with
  | nil => simp [insort]
  | cons y ys ih =>
    by_cases hc : lt x y
    · simp [insort, hc]
    · simp [insort, hc, ih]
      tauto

theorem mem_isort {lt : Nat → Nat → Bool} {a : Nat} :
    ∀ {l : List Nat}, a ∈ isort lt l ↔ a ∈ l := by
  intro l
  induction l with
  | nil => simp [isort]
  | cons y ys ih => simp [isort, mem_insort, ih]

theorem mem_keptIdx [NumberLike α] {xs : List α} {i : Nat}
    (h : i ∈ keptIdx xs) : i < xs.length ∧ keptAt xs i = true := by
  unfold keptIdx at h
  simp at h
  exact ⟨h.1, h.2⟩

theorem sel_sub_keptIdx [NumberLike α] {sl : SetSelector} {xs : List α}
    {maxT : Option Nat} {i : Nat} (h : i ∈ sl.sel xs maxT) : i ∈ keptIdx xs := by
  unfold SetSelector.sel at h
  have core : ∀ {ch : List Nat},
      i ∈ (match maxT with | some m => ch.take m | none => ch) → i ∈ ch := by
    intro ch hm
    rcases maxT with - | m
    · exact hm
    · exact List.mem_of_mem_take hm
  rcases hc : sl.cat with - | c
  · rw [hc] at h
    exact (List.mem_filter.mp (core h)).1
  · rcases c <;> rw [hc] at h
    · exact mem_isort.mp (List.mem_of_mem_take (core h))
    · exact mem_isort.mp (List.mem_of_mem_take (core h))
    · exact (List.mem_filter.mp (core h)).1
    · exact (List.mem_filter.mp (core h)).1

theorem mem_unionIdx {a b : List Nat} {i : Nat} :
    i ∈ unionIdx a b ↔ i ∈ a ∨ i ∈ b := by
  unfold unionIdx
  simp [List.mem_filter]
  tauto

theorem opSelectGo_sub [NumberLike α] {xs : List α} {maxT : Option Nat} :
    ∀ {sels : List SetSelector} {out : List Nat} {i : Nat},
    (∀ j ∈ out, j ∈ keptIdx xs) → i ∈ opSelectGo xs maxT sels out →
    i ∈ keptIdx xs := by
  intro sels
  induction sels with
  | nil =>
    intro out i hout h
    simp [opSelectGo] at h
    exact hout i h
  | cons sl rest ih =>
    intro out i hout h
    simp only [opSelectGo] at h
    have hu : ∀ (mt : Option Nat) (j : Nat),
        j ∈ unionIdx out (sl.sel xs mt) → j ∈ keptIdx xs := by
      intro mt j hj
      rcases mem_unionIdx.mp hj with hj | hj
      · exact hout j hj
      · exact sel_sub_keptIdx hj
    rcases maxT with - | m
    · exact ih (hu none) h
    · by_cases hb : m - out.length = 0
      · simp [hb] at h
        exact hout i h
      · simp [hb] at h
        exact ih (hu _) h

theorem opSelect_sub [NumberLike α] {sels : List SetSelector} {xs : List α}
    {maxT : Option Nat} {i : Nat} (h : i ∈ opSelect sels xs maxT) :
    i ∈ keptIdx xs :=
  opSelectGo_sub (by simp) h

theorem opSelect_lt_length [NumberLike α] {sels : List SetSelector}
    {xs : List α} {maxT : Option Nat} {i : Nat} (h : i ∈ opSelect sels xs maxT) :
    i < xs.length :=
  (mem_keptIdx (opSelect_sub h)).1

/-- expression.py `SetOperator.reroll`: repeatedly reroll the selection until
it is empty; terminates because every iteration spends roll budget. -/
def rerollLoop (sels : List SetSelector) (ds : List Die) (s : RState) :
    Except RollErr (List Die × RState) :=
  if h : opSelect sels ds none = [] then .ok (ds, s)
  else
    match h2 : rerollAll (opSelect sels ds none) ds s with
    | .error e => .error e
    | .ok (ds', s') => rerollLoop sels ds' s'
termination_by s.ctx.maxRolls + 1 - s.ctx.rolls
decreasing_by
  have hf := rerollAll_ok (fun i hi => opSelect_lt_length hi) h2
  have hne : 0 < (opSelect sels ds none).length := List.length_pos.mpr h
  have hle := hf.2.2.2 h
  omega

theorem rollAnother_ok {dc : Dice} {s : RState} {dc' : Dice} {s' : RState}
    (h : Dice.rollAnother dc s = .ok (dc', s')) :
    s'.ctx.maxRolls = s.ctx.maxRolls ∧ s'.ctx.rolls = s.ctx.rolls + 1 ∧
    s'.ctx.rolls ≤ s.ctx.maxRolls := by
  unfold Dice.rollAnother at h
  rcases hn : Die.new dc.size s with e | ⟨d, s1⟩ <;> rw [hn] at h
  · simp at h
  · simp at h
    obtain ⟨rfl, rfl⟩ := h
    exact dieNew_ok hn

/-- The inner loop of expression.py `SetOperator.explode`: mark each selected
die exploded and append a fresh die for it. -/
def explodeAll : List Nat → Dice → RState → Except RollErr (Dice × RState)
  | [], dc, s => .ok (dc, s)
  | i :: rest, dc, s =>
    match Dice.rollAnother { dc with values := updateAt Die.explodeIt i dc.values } s with
    | .error e => .error e
    | .ok (dc2, s2) => explodeAll rest dc2 s2

theorem explodeAll_ok : ∀ {is : List Nat} {dc : Dice} {s : RState}
    {dc' : Dice} {s' : RState}, explodeAll is dc s = .ok (dc', s') →
    s'.ctx.maxRolls = s.ctx.maxRolls ∧ s'.ctx.rolls = s.ctx.rolls + is.length ∧
    (is ≠ [] → s'.ctx.rolls ≤ s.ctx.maxRolls) := by
  intro is
  induction is with
  | nil =>
    intro dc s dc' s' h
    simp [explodeAll] at h
    obtain ⟨rfl, rfl⟩ := h
    simp
  | cons i rest ih =>
    intro dc s dc' s' h
    simp only [explodeAll] at h
    rcases h1 : Dice.rollAnother { dc with values := updateAt Die.explodeIt i dc.values } s
        with e | ⟨dc1, s1⟩ <;> rw [h1] at h
    · simp at h
    · have f1 := rollAnother_ok h1
      have f2 := ih h
      refine ⟨by omega, by simp; omega, fun _ => ?_⟩
      rcases hrest : rest with - | ⟨j, tl⟩
      · subst hrest
        simp [explodeAll] at h
        obtain ⟨-, rfl⟩ := h
        omega
      · have := f2.2.2 (by simp [hrest])
        omega

/-- expression.py `SetOperator.explode`: repeatedly explode the not yet
exploded part of the selection; terminates on the roll budget. -/
def explodeLoop (sels : List SetSelector) (already : List Nat) (dc : Dice)
    (s : RState) : Except RollErr (Dice × RState) :=
  if h : (opSelect sels dc.values none).filter (fun i => !(already.contains i)) = [] then
    .ok (dc, s)
  else
    match h2 : explodeAll ((opSelect sels dc.values none).filter (fun i => !(already.contains i))) dc s with
    | .error e => .error e
    | .ok (dc', s') =>
      explodeLoop sels
        (already ++ (opSelect sels dc.values none).filter (fun i => !(already.contains i))) dc' s'
termination_by s.ctx.maxRolls + 1 - s.ctx.rolls
decreasing_by
  have hf := explodeAll_ok h2
  have hne : 0 < ((opSelect sels dc.values none).filter (fun i => !(already.contains i))).length :=
    List.length_pos.mpr h
  have hle := hf.2.2 h
  omega

/-- expression.py `SetOperator.minimum`: the last selector must be a bare
number `n`; every kept die reading below `n` is forced up to `n`. -/
def miOp (sels : List SetSelector) (dc : Dice) : Except RollErr Dice :=
  match (sels.getLastD ⟨none, 0⟩).cat with
  | some _ => .error .valueErr
  | none =>
    let theMin : Value := ((sels.getLastD ⟨none, 0⟩).num : Value)
    .ok { dc with values :=
      dc.values.map (fun d => if d.kept && decide (d.number < theMin) then d.forceValue theMin else d) }

/-- expression.py `SetOperator.maximum`: dual of `minimum`. -/
def maOp (sels : List SetSelector) (dc : Dice) : Except RollErr Dice :=
  match (sels.getLastD ⟨none, 0⟩).cat with
  | some _ => .error .valueErr
  | none =>
    let theMax : Value := ((sels.getLastD ⟨none, 0⟩).num : Value)
    .ok { dc with values :=
      dc.values.map (fun d => if d.kept && decide (theMax < d.number) then d.forceValue theMax else d) }

/-- The set-operator symbols. -/
inductive OpKind where
  | k | p | rr | ro | ra | e | mi | ma
deriving DecidableEq, Repr

/-- expression.py `SetOperator` (an op with its selectors). -/
structure SetOp where
  op : OpKind
  sels : List SetSelector
deriving DecidableEq, Repr

/-- expression.py `SetOperator.operate` on a `Dice` target. -/
def SetOp.operateDice (o : SetOp) (dc : Dice) (s : RState) :
    Except RollErr (Dice × RState) :=
  match o.op with
  | .k => .ok ({ dc with values := keepL o.sels dc.values }, s)
  | .p => .ok ({ dc with values := dropL o.sels dc.values }, s)
  | .rr =>
    match rerollLoop o.sels dc.values s with
    | .error e => .error e
    | .ok (ds, s') => .ok ({ dc with values := ds }, s')
  | .ro =>
    match rerollAll (opSelect o.sels dc.values none) dc.values s with
    | .error e => .error e
    | .ok (ds, s') => .ok ({ dc with values := ds }, s')
  | .ra => explodeAll (opSelect o.sels dc.values (some 1)) dc s
  | .e => explodeLoop o.sels [] dc s
  | .mi =>
    match miOp o.sels dc with
    | .error e => .error e
    | .ok dc' => .ok (dc', s)
  | .ma =>
    match maOp o.sels dc with
    | .error e => .error e
    | .ok dc' => .ok (dc', s)

/-- The operator loop of dice.py `Roller._eval_operatedset` applied to dice. -/
def applyOps : List SetOp → Dice → RState → Except RollErr (Dice × RState)
  | [], dc, s => .ok (dc, s)
  | o :: rest, dc, s =>
    match o.operateDice dc s with
    | .error e => .error e
    | .ok (dc', s') => applyOps rest dc' s'

/-- Evaluate an `OperatedDice` AST node: roll `NdS`, then apply the operators
left to right. -/
def evalOperatedDice (num : Nat) (size : DieSize) (ops : List SetOp)
    (s : RState) : Except RollErr (Dice × RState) :=
  match Dice.new num size s with
  | .error e => .error e
  | .ok (dc, s') => applyOps ops dc s'

/-- The binary operator symbols of expression.py `BinOp.BINARY_OPS`. -/
inductive BinOpKind where
  | add | sub | mul | div | floordiv | mod
  | lt | gt | eq | ge | le | ne
deriving DecidableEq, Repr

/-- expression.py `BinOp.number`: `BINARY_OPS[op]` on the operand totals, with
`ZeroDivisionError` re-raised as `RollValueError`. Python `/` is true
division, `//` floor division and `%` the floored modulus; comparisons return
`int(bool)`. -/
def binNumber (op : BinOpKind) (l r : Value) : Except RollErr Value :=
  match op with
  | .add => .ok (l + r)
  | .sub => .ok (l - r)
  | .mul => .ok (l * r)
  | .div => if r = 0 then .error .valueErr else .ok (l / r)
  | .floordiv => if r = 0 then .error .valueErr else .ok ((⌊l / r⌋ : Int) : Value)
  | .mod => if r = 0 then .error .valueErr else .ok (l - r * ((⌊l / r⌋ : Int) : Value))
  | .lt => .ok (if l < r then 1 else 0)
  | .gt => .ok (if r < l then 1 else 0)
  | .eq => .ok (if l = r then 1 else 0)
  | .ge => .ok (if r ≤ l then 1 else 0)
  | .le => .ok (if l ≤ r then 1 else 0)
  | .ne => .ok (if l ≠ r then 1 else 0)

/-- The literal appended by one `_add_roll` draw from the raw stream value
`raw`: `randrange(size) + 1` for an integer size, `randrange(0, 100, 10)`
for `'%'`. -/
def rolledLit (size : DieSize) (raw : Nat) : Lit :=
  match size with
  | .n k => { values := [((raw % k.toNat + 1 : Nat) : Value)] }
  | .percent => { values := [((10 * (raw % 10) : Nat) : Value)] }

/-- The die produced by one `_add_roll` draw from the raw stream value
`raw` (used to state the closed form of `Dice.new`). -/
def mkRolledDie (size : DieSize) (raw : Nat) : Die :=
  { size := size, values := [rolledLit size raw] }

/-- A fresh evaluation state for one `roll()` call (`RollContext.reset` has
run, the stream cursor is at the start). -/
def mkState (rng : Nat → Nat) : RState := { rng := rng }

/-- The state after consuming `di` stream values and counting `dr` rolls
(used to state closed forms of rolling). -/
def bumpState (s : RState) (di dr : Nat) : RState :=
  { s with idx := s.idx + di, ctx := { s.ctx with rolls := s.ctx.rolls + dr } }

/-- The `Dice` value produced by a successful `Dice.new num size` from state
`s` (closed form: die `t` is drawn from stream value `s.rng (s.idx + t)`). -/
def freshDice (num : Nat) (size : DieSize) (s : RState) : Dice :=
  { num := num, size := size, values := (List.range num).map (fun t => mkRolledDie size (s.rng (s.idx + t))) }

/-! ## Evaluated expression trees and crit detection

dice.py `RollResult.crit` walks the chain of leftmost children of the
evaluated expression tree, so the embedding needs the tree shape: note that
the expression-model `Dice.children` is overridden to `[]`, which is what
stops the walk at a `Dice` node. -/

/-- The evaluated expression tree (expression.py `Number` subclasses other
than the root `Expression`). `elit` embeds a `Lit`, `edice` a `Dice`. -/
inductive ENum where
  | elit (l : Lit)
  | unop (op : String) (v : ENum) (kept : Bool)
  | binop (op : BinOpKind) (l r : ENum) (kept : Bool)
  | paren (v : ENum) (kept : Bool)
  | eset (values : List ENum) (kept : Bool)
  | edice (dc : Dice)

/-- expression.py `Expression`: the root of an evaluated tree. -/
structure EExpression where
  roll : ENum
  comment : Option String := none
  kept : Bool := true

/-- The `while left.children: left = left.children[0]` walk of
dice.py `RollResult.crit`, below the root (`Expression.children = [roll]`,
`Dice.children = []`, `Literal.children = []`). -/
def ENum.leftmost : ENum → ENum
  | .unop _ v _ => ENum.leftmost v
  | .binop _ l _ _ => ENum.leftmost l
  | .paren v _ => ENum.leftmost v
  | .eset (v :: _) _ => ENum.leftmost v
  | .eset [] k => .eset [] k
  | .elit l => .elit l
  | .edice dc => .edice dc

/-- dice.py `CritType`. -/
inductive CritType where
  | none | crit | fail
deriving DecidableEq, Repr

/-- dice.py `RollResult.crit`. -/
def critOf (e : EExpression) : CritType :=
  match e.roll.leftmost with
  | .edice dc =>
    if dc.keptset.length = 1 ∧ dc.size = .n 20 then
      if dc.total = 1 then .fail
      else if dc.total = 20 then .crit
      else .none
    else .none
  | _ => .none

/-! ## The AST (diceast.py)

AST `SetOperator`/`SetSelector` carry the same data as their runtime
counterparts, so `SetOp`/`SetSelector` are reused. AST literal values are
integers (the claims under study never involve `DECIMAL` literals). -/

/-- diceast.py node variants. -/
inductive ANode where
  | expr (roll : ANode) (comment : Option String)
  | annoNum (value : ANode) (annos : List String)
  | lit (value : Int)
  | paren (value : ANode)
  | unop (op : String) (value : ANode)
  | binop (left : ANode) (op : String) (right : ANode)
  | opSet (value : ANode) (operations : List SetOp)
  | numSet (values : List ANode)
  | opDice (value : ANode) (operations : List SetOp)
  | dice (num : Int) (size : DieSize)

/-- diceast.py `SetOperator.IMMEDIATE` membership. -/
def OpKind.isImmediate : OpKind → Bool
  | .mi => true
  | .ma => true
  | _ => false

/-- One step of diceast.py `OperatedSet._simplify_operations`: append the
next operator, merging it into the previous one (by extending its selector
list) when ops match and the op is not immediate. -/
def simpStep (acc : List SetOp) (o : SetOp) : List SetOp :=
  if o.op.isImmediate then acc ++ [o]
  else
    match acc.getLast? with
    | none => acc ++ [o]
    | some lastOp =>
      if o.op = lastOp.op then
        acc.dropLast ++ [{ lastOp with sels := lastOp.sels ++ o.sels }]
      else acc ++ [o]

/-- diceast.py `OperatedSet._simplify_operations`. -/
def simpOps (ops : List SetOp) : List SetOp := ops.foldl simpStep []

/-- diceast.py `OperatedSet.__init__` (simplification runs on
construction). -/
def mkOperatedSet (value : ANode) (ops : List SetOp) : ANode :=
  .opSet value (simpOps ops)

/-- diceast.py `OperatedDice.__init__`. -/
def mkOperatedDice (value : ANode) (ops : List SetOp) : ANode :=
  .opDice value (simpOps ops)

/-- `str` of a selector category. -/
def SelCat.str : SelCat → String
  | .l => "l"
  | .h => "h"
  | .lt => "<"
  | .gt => ">"

/-- diceast.py `SetSelector.__str__`. -/
def SetSelector.str (sl : SetSelector) : String :=
  match sl.cat with
  | some c => c.str ++ toString sl.num
  | none => toString sl.num

/-- The operator symbol strings. -/
def OpKind.str : OpKind → String
  | .k => "k"
  | .p => "p"
  | .rr => "rr"
  | .ro => "ro"
  | .ra => "ra"
  | .e => "e"
  | .mi => "mi"
  | .ma => "ma"

/-- diceast.py `SetOperator.__str__`: the op symbol repeated before each
selector. -/
def SetOp.str (o : SetOp) : String :=
  String.join (o.sels.map (fun sl => o.op.str ++ sl.str))

/-- `str` of a die size. -/
def DieSize.str : DieSize → String
  | .n k => toString k
  | .percent => "%"

/-- diceast.py `__str__` of each node variant. -/
def ANode.str : ANode → String
  | .expr roll (some c) => roll.str ++ " " ++ c
  | .expr roll none => roll.str
  | .annoNum v annos => v.str ++ " " ++ String.join annos
  | .lit v => toString v
  | .paren v => "(" ++ v.str ++ ")"
  | .unop op v => op ++ v.str
  | .binop l op r => l.str ++ " " ++ op ++ " " ++ r.str
  | .opSet v ops => v.str ++ String.join (ops.map SetOp.str)
  | .numSet [v] => "(" ++ v.str ++ ",)"
  | .numSet vs => "(" ++ String.intercalate ", " (vs.attach.map (fun x => ANode.str x.1)) ++ ")"
  | .opDice v ops => v.str ++ String.join (ops.map SetOp.str)
  | .dice n sz => toString n ++ "d" ++ sz.str
termination_by t => sizeOf t
decreasing_by
  all_goals simp_wf
  all_goals try omega
  all_goals (have h := List.sizeOf_lt_of_mem x.2; omega)

/-- `ChildMixin.left` on AST nodes (first child, none for leaves). -/
def leftChildA : ANode → Option ANode
  | .expr r _ => some r
  | .annoNum v _ => some v
  | .lit _ => none
  | .paren v => some v
  | .unop _ v => some v
  | .binop l _ _ => some l
  | .opSet v _ => some v
  | .numSet vs => vs.head?
  | .opDice v _ => some v
  | .dice _ _ => none

/-- The `left` setter (`set_child(0, value)`) on AST nodes; leaves are
returned unchanged (setting a leaf's child raises in the source and is
unreachable from the walk). -/
def withLeftA : ANode → ANode → ANode
  | .expr _ c, nl => .expr nl c
  | .annoNum _ a, nl => .annoNum nl a
  | .paren _, nl => .paren nl
  | .unop op _, nl => .unop op nl
  | .binop _ op r, nl => .binop nl op r
  | .opSet _ ops, nl => .opSet nl ops
  | .numSet (_ :: vs), nl => .numSet (nl :: vs)
  | .opDice _ ops, nl => .opDice nl ops
  | t, _ => t

/-- utils.py `leftmost`: the leftmost leaf of a tree. -/
def leftLeafA : ANode → ANode
  | .expr r _ => leftLeafA r
  | .annoNum v _ => leftLeafA v
  | .lit v => .lit v
  | .paren v => leftLeafA v
  | .unop _ v => leftLeafA v
  | .binop l _ _ => leftLeafA l
  | .opSet v _ => leftLeafA v
  | .numSet (v :: _) => leftLeafA v
  | .numSet [] => .numSet []
  | .opDice v _ => leftLeafA v
  | .dice n sz => .dice n sz

/-- The `child.num == 1 and child.size == 20` test of utils.py
`ast_adv_copy`. -/
def ANode.is1d20 : ANode → Bool
  | .dice n sz => decide (n = 1) && decide (sz = DieSize.n 20)
  | _ => false

/-- The `kh1`/`kl1` operator prepended by the advantage rewrite
(`SetOperator('k', [SetSelector('h' or 'l', 1)])`). -/
def advSel (advtype : Int) : SetOp :=
  ⟨.k, [⟨some (if advtype = 1 then .h else .l), 1⟩]⟩

/-- The descending walk of utils.py `ast_adv_copy`: `c` is the left child of
`p`; descend to the leftmost leaf, then apply the `1d20 → 2d20k(h or l)1`
rewrite at the leaf's parent (wrapping in an `OperatedDice` unless the
parent already is one). -/
def advWalk (advtype : Int) (p c : ANode) : ANode :=
  match c with
  | .expr r cm => withLeftA p (advWalk advtype (.expr r cm) r)
  | .annoNum v a => withLeftA p (advWalk advtype (.annoNum v a) v)
  | .paren v => withLeftA p (advWalk advtype (.paren v) v)
  | .unop op v => withLeftA p (advWalk advtype (.unop op v) v)
  | .binop l op r => withLeftA p (advWalk advtype (.binop l op r) l)
  | .opSet v ops => withLeftA p (advWalk advtype (.opSet v ops) v)
  | .numSet (v :: vs) => withLeftA p (advWalk advtype (.numSet (v :: vs)) v)
  | .opDice v ops =>
    if v.is1d20 then withLeftA p (.opDice (.dice 2 (.n 20)) (advSel advtype :: ops))
    else withLeftA p (advWalk advtype (.opDice v ops) v)
  | .dice n sz =>
    if (ANode.dice n sz).is1d20 then withLeftA p (.opDice (.dice 2 (.n 20)) [advSel advtype])
    else p
  | .numSet [] => p
  | .lit _ => p

/-- utils.py `ast_adv_copy` (pure rewrite: the source copies the nodes along
the leftmost path and mutates the copies; the embedding rebuilds that path).
The `advtype = 0` (`NONE`) case returns the tree unchanged. A *root* that is
itself a bare `1d20` leaf raises `IndexError` in the source and is
unreachable from `roll` (roots are `Expression` nodes); the embedding
returns such a tree unchanged. -/
def astAdvCopy (t : ANode) (advtype : Int) : ANode :=
  if advtype = 0 then t
  else
    match t with
    | .expr r cm => advWalk advtype (.expr r cm) r
    | .annoNum v a => advWalk advtype (.annoNum v a) v
    | .paren v => advWalk advtype (.paren v) v
    | .unop op v => advWalk advtype (.unop op v) v
    | .binop l op r => advWalk advtype (.binop l op r) l
    | .opSet v ops => advWalk advtype (.opSet v ops) v
    | .numSet (v :: vs) => advWalk advtype (.numSet (v :: vs)) v
    | .opDice v ops =>
      if v.is1d20 then .opDice (.dice 2 (.n 20)) (advSel advtype :: ops)
      else advWalk advtype (.opDice v ops) v
    | t => t

/-! ## Parsing with comments (dice.py `Roller._parse_with_comments`)

The rescue logic lives in dice.py and is embedded generically over the
underlying parser `p` (the source calls `ast.parser.parse`, an external lark
parser built from `grammar.lark`, which is not among the sources). -/

/-- A lark `UnexpectedInput` error: carries `pos_in_stream`, the offset of
the first unconsumed input. -/
structure LarkUI where
  pos : Nat
deriving DecidableEq, Repr

/-- The comment slot of a parsed `Expression` root. -/
def ANode.commentOf : ANode → Option String
  | .expr _ c => c
  | _ => none

/-- `result.comment = force_comment` on a parsed `Expression` root. -/
def setCommentA (t : ANode) (c : String) : ANode :=
  match t with
  | .expr r _ => .expr r (some c)
  | t => t

/-- Whether the fragment ends with the comment-ambiguity suffix: the only
member of `POSSIBLE_COMMENT_AMBIGUITIES` is the one-character string `*`. -/
def endsWithStar (cs : List Char) : Bool := cs.getLast? == some '*'

/-- dice.py `Roller._parse_with_comments`, generic in the underlying
`commented_expr` parser `p`: try `p`; on an unexpected-input error take the
successfully parsed fragment `expr[:pos_in_stream]`; if it ends with a known
comment-ambiguity suffix, strip the suffix, re-parse the shorter text, and
force the comment to the suffix plus the remainder; otherwise re-raise. -/
def parseWithComments (p : String → Except LarkUI ANode) (expr : String) :
    Except LarkUI ANode :=
  match p expr with
  | .ok r => .ok r
  | .error ui =>
    let frag := expr.toList.take ui.pos
    if endsWithStar frag then
      let frag2 := String.mk frag.dropLast
      let forceComment := String.mk (expr.toList.drop frag.dropLast.length)
      match p frag2 with
      | .error e => .error e
      | .ok r => .ok (setCommentA r forceComment)
    else .error ui

/-- Whitespace ignored between tokens (spaces and tabs). -/
def isWS (c : Char) : Bool := c == ' ' || c == '\t'

/-- Skip ignored whitespace, tracking the stream position. -/
def skipWS : List Char → Nat → List Char × Nat
  | c :: cs, p => if isWS c then skipWS cs (p + 1) else (c :: cs, p)
  | [], p => ([], p)

/-- Lex a run of digits (callers ensure the first char is a digit). -/
def lexNat : List Char → Nat → Nat → Nat × List Char × Nat
  | c :: cs, p, acc =>
    if c.isDigit then lexNat cs (p + 1) (acc * 10 + (c.toNat - 48))
    else (acc, c :: cs, p)
  | [], p, acc => (acc, [], p)

/-- Modelled from the spec: the `(INTEGER | '%')` die-size tail of the
`diceexpr` production (grammar.lark is not among the sources). -/
def parseSize (n : Nat) (cs : List Char) (p : Nat) :
    Except Nat (ANode × List Char × Nat) :=
  match cs with
  | c :: cs' =>
    if c.isDigit then
      let (m, cs2, p2) := lexNat (c :: cs') p 0
      .ok (.opDice (.dice (n : Int) (.n (m : Int))) [], cs2, p2)
    else if c == '%' then .ok (.opDice (.dice (n : Int) .percent) [], cs', p + 1)
    else .error p
  | [] => .error p

/-- Modelled from the spec: the atoms `diceexpr : INTEGER? 'd' (INTEGER|'%')`
and `literal : INTEGER` of the grammar (grammar.lark is not among the
sources; the subset covers the claim's inputs). -/
def parseAtom (cs : List Char) (p : Nat) : Except Nat (ANode × List Char × Nat) :=
  match cs with
  | c :: cs' =>
    if c.isDigit then
      let (n, cs1, p1) := lexNat (c :: cs') p 0
      match cs1 with
      | 'd' :: cs2 => parseSize n cs2 (p1 + 1)
      | _ => .ok (.lit (n : Int), cs1, p1)
    else if c == 'd' then parseSize 1 cs' (p + 1)
    else .error p
  | [] => .error p

/-- Modelled from the spec: the `m_num : u_num (M_OP u_num)*` chain for the
`'*'` operator. A `'*'` after a complete expression is consumed as `M_OP`
(this is exactly the comment ambiguity the rescue handles), so the parse
then fails at the position after it unless a dice or integer atom follows.
The fuel argument only bounds the loop; it starts at the input length, which
the loop (consuming at least one char per round) never exhausts. -/
def parseMLoop (fuel : Nat) (left : ANode) (cs : List Char) (p : Nat) :
    Except Nat (ANode × List Char × Nat) :=
  match fuel with
  | 0 => .error p
  | f + 1 =>
    let (cs1, p1) := skipWS cs p
    match cs1 with
    | '*' :: cs2 =>
      let (cs3, p3) := skipWS cs2 (p1 + 1)
      match parseAtom cs3 p3 with
      | .error ep => .error ep
      | .ok (rhs, cs4, p4) => parseMLoop f (.binop left "*" rhs) cs4 p4
    | _ => .ok (left, cs1, p1)

/-- Modelled from the spec: the lark parser over the grammar subset, with the
two start rules. With `commented = true` (`commented_expr`), input left over
after the expression becomes the free-text `COMMENT` (a longest-match token,
so text such as `keep something` is a comment even though `k` alone could
continue a dice expression); with `commented = false` (`expr`), leftover
input is an unexpected-input error at its position. -/
def specLarkParse (commented : Bool) (input : String) : Except LarkUI ANode :=
  let cs0 := input.toList
  let (cs1, p1) := skipWS cs0 0
  match parseAtom cs1 p1 with
  | .error ep => .error ⟨ep⟩
  | .ok (atom, cs2, p2) =>
    match parseMLoop (cs0.length + 1) atom cs2 p2 with
    | .error ep => .error ⟨ep⟩
    | .ok (node, cs3, p3) =>
      match cs3 with
      | [] => .ok (.expr node none)
      | rest =>
        if commented then .ok (.expr node (some (String.mk rest)))
        else .error ⟨p3⟩

/-- dice.py `Roller.parse`: choose the start rule by `allow_comments` and map
lark errors to the library's `RollSyntaxError`. -/
def rollerParse (allowComments : Bool) (input : String) : Except RollErr ANode :=
  if allowComments then
    match parseWithComments (specLarkParse true) input with
    | .error _ => .error .syntaxErr
    | .ok r => .ok r
  else
    match specLarkParse false input with
    | .error _ => .error .syntaxErr
    | .ok r => .ok r

/-! ## Sum helpers used by the range statements -/

/-- `Number.number` of a set node: the sum of the kept members' `number`s. -/
def sumKeptNumber [NumberLike α] (xs : List α) : Value :=
  ((xs.filter (fun x => NumberLike.kept x)).map (fun x => NumberLike.numberv x)).sum

/-- The expression-model literals of a `NumberSet` such as `(1, 2, 3, 4, 5)`
after evaluation. -/
def mkLits (vals : List Value) : List Lit :=
  vals.map (fun v => { values := [v] })

/-- Whether drawing a die of this size can pass the size check in
`Die._add_roll`. -/
def DieSize.ok : DieSize → Prop
  | .n k => 1 ≤ k
  | .percent => True

instance : ∀ sz : DieSize, Decidable sz.ok := by
  intro sz
  cases sz <;> simp [DieSize.ok] <;> infer_instance

/-- The invariant of a die from a `1d1` pool: it always reads 1 and stays
kept (used for the divergence of `1d1rr1` and `1d1e1`). -/
def Die.isOne (d : Die) : Prop :=
  d.size = .n 1 ∧ d.kept = true ∧ d.number = 1

/-- Well-formedness every evaluated die enjoys: it has rolled at least once
and its last (current) literal is not dropped. -/
def Die.wf (d : Die) : Prop :=
  d.values ≠ [] ∧ (d.values.getLastD { values := [] }).kept = true

/-! ## Closed form of fresh dice rolls -/

theorem addRoll_eq {d : Die} (hsz : d.size.ok) (s : RState)
    (h : s.ctx.rolls < s.ctx.maxRolls) :
    Die.addRoll d s =
      .ok ({ d with values := d.values ++ [rolledLit d.size (s.rng s.idx)] }, bumpState s 1 1) := by
  rcases hs : d.size with k | _
  · have hk : ¬(k < 1) := by
      rw [hs] at hsz
      simp [DieSize.ok] at hsz
      omega
    simp [Die.addRoll, hs, hk, countRoll, RState.draw, rolledLit, bumpState,
      show ¬(s.ctx.maxRolls < s.ctx.rolls + 1) from by omega]
  · simp [Die.addRoll, hs, countRoll, RState.draw, rolledLit, bumpState,
      show ¬(s.ctx.maxRolls < s.ctx.rolls + 1) from by omega]

theorem dieNew_eq {size : DieSize} (hsz : size.ok) (s : RState)
    (h : s.ctx.rolls < s.ctx.maxRolls) :
    Die.new size s = .ok (mkRolledDie size (s.rng s.idx), bumpState s 1 1) := by
  rw [Die.new, addRoll_eq hsz s h]
  rfl

theorem rollDice_eq {size : DieSize} (hsz : size.ok) :
    ∀ (num : Nat) (s : RState), s.ctx.rolls + num ≤ s.ctx.maxRolls →
    rollDice num size s =
      .ok ((List.range num).map (fun t => mkRolledDie size (s.rng (s.idx + t))),
        bumpState s num num) := by
  intro num
  induction num with
  | zero =>
    intro s h
    simp [rollDice, bumpState]
  | succ m ih =>
    intro s h
    have h1 : s.ctx.rolls < s.ctx.maxRolls := by omega
    have h2 : (bumpState s 1 1).ctx.rolls + m ≤ (bumpState s 1 1).ctx.maxRolls := by
      show s.ctx.rolls + 1 + m ≤ s.ctx.maxRolls
      omega
    rw [rollDice]
    simp only [dieNew_eq hsz s h1, ih (bumpState s 1 1) h2]
    refine congrArg Except.ok (Prod.ext ?_ ?_)
    · show mkRolledDie size (s.rng s.idx) :: _ = _
      rw [List.range_succ_eq_map, List.map_cons, List.map_map]
      refine congrArg₂ List.cons (by rw [Nat.add_zero]) (List.map_congr_left ?_)
      intro t _
      show mkRolledDie size (s.rng (s.idx + 1 + t)) = mkRolledDie size (s.rng (s.idx + (t + 1)))
      have he : s.idx + 1 + t = s.idx + (t + 1) := by omega
      rw [he]
    · show bumpState (bumpState s 1 1) m m = bumpState s (m + 1) (m + 1)
      simp [bumpState, Nat.add_assoc]
      omega

theorem diceNew_eq {size : DieSize} (hsz : size.ok) (num : Nat) (s : RState)
    (h : s.ctx.rolls + num ≤ s.ctx.maxRolls) :
    Dice.new num size s = .ok (freshDice num size s, bumpState s num num) := by
  rw [Dice.new, rollDice_eq hsz num s h]
  rfl

theorem mkRolledDie_kept (size : DieSize) (raw : Nat) :
    (mkRolledDie size raw).kept = true := by
  cases size <;> rfl

theorem mkRolledDie_number_n {k : Int} (hk : 1 ≤ k) (raw : Nat) :
    1 ≤ (mkRolledDie (.n k) raw).number ∧ (mkRolledDie (.n k) raw).number ≤ (k : Value) := by
  have hpos : 0 < k.toNat := by omega
  have hmod : raw % k.toNat + 1 ≤ k.toNat := Nat.mod_lt raw hpos
  constructor
  · show (1 : Value) ≤ ((raw % k.toNat + 1 : Nat) : Value)
    exact_mod_cast Nat.le_add_left 1 (raw % k.toNat)
  · show ((raw % k.toNat + 1 : Nat) : Value) ≤ (k : Value)
    calc ((raw % k.toNat + 1 : Nat) : Value) ≤ ((k.toNat : Nat) : Value) := by exact_mod_cast hmod
      _ = (k : Value) := by
        rw [show ((k.toNat : Nat) : Value) = ((k.toNat : Int) : Value) by push_cast; ring]
        rw [Int.toNat_of_nonneg (by omega)]

theorem mkRolledDie_number_pct (raw : Nat) :
    ∃ m : Nat, m ≤ 9 ∧ (mkRolledDie .percent raw).number = 10 * (m : Value) := by
  refine ⟨raw % 10, by omega, ?_⟩
  show ((10 * (raw % 10) : Nat) : Value) = 10 * ((raw % 10 : Nat) : Value)
  push_cast
  ring

/-! ## Budget exhaustion and the 1d1 loops -/

theorem addRoll_tooMany {d : Die} (hsz : d.size.ok) (s : RState)
    (h : s.ctx.maxRolls < s.ctx.rolls + 1) :
    Die.addRoll d s = .error .tooManyRolls := by
  rcases hs : d.size with k | _
  · have hk : ¬(k < 1) := by
      rw [hs] at hsz
      simp [DieSize.ok] at hsz
      omega
    simp [Die.addRoll, hs, hk, countRoll, h]
  · simp [Die.addRoll, hs, countRoll, h]

theorem dieNew_tooMany {size : DieSize} (hsz : size.ok) (s : RState)
    (h : s.ctx.maxRolls < s.ctx.rolls + 1) :
    Die.new size s = .error .tooManyRolls :=
  addRoll_tooMany hsz s h

theorem rollDice_tooMany {size : DieSize} (hsz : size.ok) :
    ∀ (num : Nat) (s : RState), s.ctx.rolls ≤ s.ctx.maxRolls →
    s.ctx.maxRolls < s.ctx.rolls + num →
    rollDice num size s = .error .tooManyRolls := by
  intro num
  induction num with
  | zero =>
    intro s h1 h2
    omega
  | succ m ih =>
    intro s h1 h2
    by_cases hc : s.ctx.rolls < s.ctx.maxRolls
    · rw [rollDice]
      have ht : (bumpState s 1 1).ctx.rolls ≤ (bumpState s 1 1).ctx.maxRolls := by
        show s.ctx.rolls + 1 ≤ s.ctx.maxRolls
        omega
      have ht2 : (bumpState s 1 1).ctx.maxRolls < (bumpState s 1 1).ctx.rolls + m := by
        show s.ctx.maxRolls < s.ctx.rolls + 1 + m
        omega
      simp only [dieNew_eq hsz s hc, ih (bumpState s 1 1) ht ht2]
    · rw [rollDice]
      simp only [dieNew_tooMany hsz s (by omega)]

theorem get?_updateAt (f : α → α) : ∀ (i j : Nat) (l : List α),
    (updateAt f i l).get? j = if j = i then (l.get? j).map f else l.get? j := by
  intro i j l
  induction l generalizing i j with
  | nil => cases j <;> simp [updateAt]
  | cons x tl ih =>
    cases i with
    | zero =>
      cases j with
      | zero => simp [updateAt]
      | succ k => simp [updateAt]
    | succ m =>
      cases j with
      | zero => simp [updateAt]
      | succ k =>
        show (updateAt f m tl).get? k = _
        rw [ih m k]
        have he : (k + 1 = m + 1) ↔ (k = m) := by omega
        simp [he]

theorem length_updateAt (f : α → α) : ∀ (i : Nat) (l : List α),
    (updateAt f i l).length = l.length := by
  intro i l
  induction l generalizing i with
  | nil => simp [updateAt]
  | cons x tl ih =>
    cases i with
    | zero => simp [updateAt]
    | succ m => simp [updateAt, ih]

theorem mem_updateAt {f : α → α} : ∀ {i : Nat} {l : List α} {d : α},
    d ∈ updateAt f i l → d ∈ l ∨ ∃ c ∈ l, d = f c := by
  intro i l
  induction l generalizing i with
  | nil =>
    intro d h
    simp [updateAt] at h
  | cons x tl ih =>
    intro d h
    cases i with
    | zero =>
      simp only [updateAt, List.mem_cons] at h
      rcases h with h | h
      · exact Or.inr ⟨x, by simp, h⟩
      · exact Or.inl (by simp [h])
    | succ m =>
      simp only [updateAt, List.mem_cons] at h
      rcases h with h | h
      · exact Or.inl (by simp [h])
      · rcases ih h with h2 | ⟨c, hc, hd⟩
        · exact Or.inl (by simp [h2])
        · exact Or.inr ⟨c, by simp [hc], hd⟩

theorem opSelect_ones {ds : List Die} (h : ∀ d ∈ ds, d.isOne) :
    opSelect [⟨none, 1⟩] ds none = List.range ds.length := by
  have hka : ∀ i ∈ List.range ds.length, keptAt ds i = true := by
    intro i hi
    rw [List.mem_range] at hi
    rw [keptAt, List.get?_eq_get hi]
    exact (h _ (ds.get_mem i hi)).2.1
  have hk : keptIdx ds = List.range ds.length := by
    rw [keptIdx, List.filter_eq_self]
    exact hka
  have hsel : SetSelector.sel ⟨none, 1⟩ ds none = List.range ds.length := by
    rw [SetSelector.sel]
    show (keptIdx ds).filter _ = _
    rw [hk, List.filter_eq_self]
    intro i hi
    rw [List.mem_range] at hi
    have ht : totalAt ds i = 1 := by
      rw [totalAt, List.get?_eq_get hi]
      show NumberLike.total (ds.get ⟨i, hi⟩) = 1
      have hd := h _ (ds.get_mem i hi)
      rw [NumberLike.total]
      show (if (ds.get ⟨i, hi⟩).kept then (ds.get ⟨i, hi⟩).number else 0) = 1
      rw [hd.2.1, if_pos rfl]
      exact hd.2.2
    simp [ht]
  show opSelectGo ds none [⟨none, 1⟩] [] = _
  rw [opSelectGo, opSelectGo, hsel]
  simp [unionIdx]

theorem mkRolledDie_one (raw : Nat) : (mkRolledDie (.n 1) raw).isOne := by
  refine ⟨rfl, rfl, ?_⟩
  show Lit.total { values := [((raw % Int.toNat 1 + 1 : Nat) : Value)] } = 1
  rw [show Int.toNat 1 = 1 from rfl, Nat.mod_one]
  rfl

theorem reroll_one {d : Die} (hd : d.isOne) (s : RState) :
    (s.ctx.maxRolls < s.ctx.rolls + 1 → d.reroll s = .error .tooManyRolls) ∧
    (s.ctx.rolls < s.ctx.maxRolls →
      ∃ d2 : Die, d.reroll s = .ok (d2, bumpState s 1 1) ∧ d2.isOne) := by
  obtain ⟨hsz, hk, hn⟩ := hd
  constructor
  · intro h
    exact addRoll_tooMany (by simp [hsz, DieSize.ok]) s h
  · intro h
    have hszr : (({ d with values := d.values.dropLast ++ (d.values.getLast?.map Lit.dropIt).toList } : Die)).size.ok := by
      show d.size.ok
      rw [hsz]
      simp [DieSize.ok]
    rw [Die.reroll, addRoll_eq hszr s h]
    refine ⟨_, rfl, ?_, ?_, ?_⟩
    · exact hsz
    · exact hk
    · show Die.number _ = 1
      rw [Die.number]
      show ((_ ++ [rolledLit d.size (s.rng s.idx)]).getLastD _).total = 1
      rw [List.getLastD_concat, hsz]
      show Lit.total { values := [((s.rng s.idx % Int.toNat 1 + 1 : Nat) : Value)] } = 1
      rw [show Int.toNat 1 = 1 from rfl, Nat.mod_one]
      rfl

theorem rerollLoop_ones : ∀ (W : Nat) (d : Die) (s : RState), d.isOne →
    s.ctx.rolls ≤ s.ctx.maxRolls → s.ctx.maxRolls + 1 - s.ctx.rolls ≤ W →
    rerollLoop [⟨none, 1⟩] [d] s = .error .tooManyRolls := by
  intro W
  induction W with
  | zero =>
    intro d s _ h1 h2
    omega
  | succ w ih =>
    intro d s hd h1 h2
    have hsel : opSelect [⟨none, 1⟩] [d] none = [0] := by
      rw [opSelect_ones (by simpa using hd)]
      rfl
    rw [rerollLoop, dif_neg (by simp [hsel]), hsel]
    by_cases hc : s.ctx.rolls < s.ctx.maxRolls
    · obtain ⟨d2, hre, hd2⟩ := (reroll_one hd s).2 hc
      have hall : rerollAll [0] [d] s = .ok ([d2], bumpState s 1 1) := by
        simp [rerollAll, rerollAt, hre]
      split
      · rename_i e heq
        rw [hall] at heq
        exact Except.noConfusion heq
      · rename_i ds' s' heq
        rw [hall] at heq
        injection heq with heq2
        cases heq2
        exact ih d2 (bumpState s 1 1) hd2 (by show s.ctx.rolls + 1 ≤ s.ctx.maxRolls; omega)
          (by show s.ctx.maxRolls + 1 - (s.ctx.rolls + 1) ≤ w; omega)
    · have herr := (reroll_one hd s).1 (by omega)
      have hall : rerollAll [0] [d] s = .error .tooManyRolls := by
        simp [rerollAll, rerollAt, herr]
      split
      · rename_i e heq
        rw [hall] at heq
        injection heq with heq2
        rw [← heq2]
      · rename_i ds' s' heq
        rw [hall] at heq
        exact Except.noConfusion heq

theorem explodeIt_facts (d : Die) :
    d.explodeIt.number = d.number ∧ d.explodeIt.kept = d.kept ∧
    d.explodeIt.size = d.size := by
  rcases List.eq_nil_or_concat d.values with hv | ⟨l, a, hv⟩
  · refine ⟨?_, rfl, rfl⟩
    rw [Die.explodeIt, Die.number, Die.number, hv]
    rfl
  · rw [List.concat_eq_append] at hv
    refine ⟨?_, rfl, rfl⟩
    rw [Die.explodeIt, Die.number, Die.number, hv]
    simp only [List.dropLast_concat, List.getLast?_concat, Option.map_some]
    show ((l ++ [Lit.explodeIt a]).getLastD _).total = ((l ++ [a]).getLastD _).total
    rw [List.getLastD_concat, List.getLastD_concat]
    rfl

theorem filter_range_block (a c : Nat) :
    (List.range (a + c)).filter (fun i => !((List.range a).contains i)) =
      (List.range c).map (fun x => a + x) := by
  rw [List.range_add, List.filter_append]
  have h1 : (List.range a).filter (fun i => !((List.range a).contains i)) = [] := by
    rw [List.filter_eq_nil_iff]
    intro i hi
    simp [hi]
  have h2 : ((List.range c).map (fun x => a + x)).filter
      (fun i => !((List.range a).contains i)) = (List.range c).map (fun x => a + x) := by
    rw [List.filter_eq_self]
    intro y hy
    rcases List.mem_map.mp hy with ⟨x, -, rfl⟩
    simp
  rw [h1, h2, List.nil_append]

theorem explodeAll_ones : ∀ (is : List Nat) (dc : Dice) (s : RState),
    dc.size = .n 1 → (∀ d ∈ dc.values, d.isOne) →
    explodeAll is dc s = .error .tooManyRolls ∨
    (∃ dc' s', explodeAll is dc s = .ok (dc', s') ∧ dc'.size = .n 1 ∧
      (∀ d ∈ dc'.values, d.isOne) ∧
      dc'.values.length = dc.values.length + is.length) := by
  intro is
  induction is with
  | nil =>
    intro dc s hsz hall
    right
    exact ⟨dc, s, rfl, hsz, hall, by simp⟩
  | cons i rest ih =>
    intro dc s hsz hall
    have hall1 : ∀ d ∈ updateAt Die.explodeIt i dc.values, d.isOne := by
      intro d hd
      rcases mem_updateAt hd with h | ⟨c, hc, hdc⟩
      · exact hall d h
      · have hcf := explodeIt_facts c
        have hco := hall c hc
        rw [hdc]
        exact ⟨by rw [hcf.2.2]; exact hco.1, by rw [hcf.2.1]; exact hco.2.1,
          by rw [hcf.1]; exact hco.2.2⟩
    have hlen1 : (updateAt Die.explodeIt i dc.values).length = dc.values.length :=
      length_updateAt _ _ _
    rw [explodeAll]
    by_cases hc : s.ctx.rolls < s.ctx.maxRolls
    · have hra : Dice.rollAnother { dc with values := updateAt Die.explodeIt i dc.values } s =
          .ok ({ dc with values := updateAt Die.explodeIt i dc.values ++ [mkRolledDie (.n 1) (s.rng s.idx)] }, bumpState s 1 1) := by
        rw [Dice.rollAnother]
        rw [show ({ dc with values := updateAt Die.explodeIt i dc.values } : Dice).size = DieSize.n 1 from hsz]
        rw [dieNew_eq (by simp [DieSize.ok]) s hc]
      simp only [hra]
      have hsz2 : ({ dc with values := updateAt Die.explodeIt i dc.values ++ [mkRolledDie (.n 1) (s.rng s.idx)] } : Dice).size = .n 1 := hsz
      have hall2 : ∀ d ∈ ({ dc with values := updateAt Die.explodeIt i dc.values ++ [mkRolledDie (.n 1) (s.rng s.idx)] } : Dice).values, d.isOne := by
        intro d hd
        rcases List.mem_append.mp hd with h | h
        · exact hall1 d h
        · rw [List.mem_singleton] at h
          rw [h]
          exact mkRolledDie_one _
      rcases ih _ (bumpState s 1 1) hsz2 hall2 with herr | ⟨dc', s', hok, h1, h2, h3⟩
      · left
        exact herr
      · right
        refine ⟨dc', s', hok, h1, h2, ?_⟩
        rw [h3]
        show (updateAt Die.explodeIt i dc.values ++ [mkRolledDie (.n 1) (s.rng s.idx)]).length + rest.length = _
        rw [List.length_append, hlen1]
        simp
        omega
    · left
      have hra : Dice.rollAnother { dc with values := updateAt Die.explodeIt i dc.values } s =
          .error .tooManyRolls := by
        rw [Dice.rollAnother]
        rw [show ({ dc with values := updateAt Die.explodeIt i dc.values } : Dice).size = DieSize.n 1 from hsz]
        rw [dieNew_tooMany (by simp [DieSize.ok]) s (by omega)]
      simp only [hra]

theorem explodeLoop_ones : ∀ (W : Nat), ∀ (m : Nat) (dc : Dice) (s : RState),
    dc.size = .n 1 → (∀ d ∈ dc.values, d.isOne) → m < dc.values.length →
    s.ctx.rolls ≤ s.ctx.maxRolls → s.ctx.maxRolls + 1 - s.ctx.rolls ≤ W →
    explodeLoop [⟨none, 1⟩] (List.range m) dc s = .error .tooManyRolls := by
  intro W
  induction W with
  | zero =>
    intro m dc s _ _ _ h1 h2
    omega
  | succ w ih =>
    intro m dc s hsz hall hm h1 h2
    have hsel : opSelect [⟨none, 1⟩] dc.values none = List.range dc.values.length :=
      opSelect_ones hall
    have hma : m + (dc.values.length - m) = dc.values.length := by omega
    have hfil : (opSelect [⟨none, 1⟩] dc.values none).filter
        (fun i => !((List.range m).contains i)) =
        (List.range (dc.values.length - m)).map (fun x => m + x) := by
      rw [hsel, ← hma, filter_range_block]
      rw [hma]
    have hne : (List.range (dc.values.length - m)).map (fun x => m + x) ≠ [] := by
      simp
      omega
    rw [explodeLoop, dif_neg (by rw [hfil]; exact hne), hfil]
    rcases explodeAll_ones ((List.range (dc.values.length - m)).map (fun x => m + x)) dc s hsz hall
      with herr | ⟨dc', s', hok, h1', h2', h3'⟩
    · split
      · rename_i e heq
        rw [herr] at heq
        injection heq with heq2
        rw [← heq2]
      · rename_i dc2 s2 heq
        rw [herr] at heq
        exact Except.noConfusion heq
    · split
      · rename_i e heq
        rw [hok] at heq
        exact Except.noConfusion heq
      · rename_i dc2 s2 heq
        rw [hok] at heq
        injection heq with heq2
        cases heq2
        have hbud := explodeAll_ok hok
        have hlis : ((List.range (dc.values.length - m)).map (fun x => m + x)).length =
            dc.values.length - m := by simp
        have happ : List.range m ++ (List.range (dc.values.length - m)).map (fun x => m + x) =
            List.range dc.values.length := by
          rw [← List.range_add, hma]
        rw [happ]
        refine ih dc.values.length dc' s' h1' h2' ?_ ?_ ?_
        · rw [h3']
          omega
        · have := hbud.2.2 (by exact hne ∘ fun hx => hx)
          omega
        · have hr := hbud.2.1
          rw [hlis] at hr
          have := hbud.2.2 (by exact fun hx => hne hx)
          omega

/-! ## Claim C2 -/

/-- C2: each die draw increments the roll counter by exactly one;
`count_roll` raises `TooManyRolls` exactly when the incremented counter
exceeds `max_rolls`; with the default budget of 1000, `1001d6`, `1d1rr1` and
`1d1e1` raise `TooManyRolls` for every RNG stream (the `rr`/`e` loops spend
budget on every iteration, which is the termination argument of the
embedding's `rerollLoop`/`explodeLoop`), while `NdS` with `N ≤ 1000`
completes without it. -/
theorem claim_C2 :
    (∀ (n : Nat) (s : RState), countRoll n s = .error .tooManyRolls ↔
      s.ctx.maxRolls < s.ctx.rolls + n) ∧
    (∀ (d : Die) (s : RState) (d' : Die) (s' : RState),
      Die.addRoll d s = .ok (d', s') → s'.ctx.rolls = s.ctx.rolls + 1) ∧
    (∀ rng : Nat → Nat, Dice.new 1001 (.n 6) (mkState rng) = .error .tooManyRolls) ∧
    (∀ rng : Nat → Nat,
      evalOperatedDice 1 (.n 1) [⟨.rr, [⟨none, 1⟩]⟩] (mkState rng) = .error .tooManyRolls) ∧
    (∀ rng : Nat → Nat,
      evalOperatedDice 1 (.n 1) [⟨.e, [⟨none, 1⟩]⟩] (mkState rng) = .error .tooManyRolls) ∧
    (∀ (rng : Nat → Nat) (N : Nat) (S : Int), N ≤ 1000 → 1 ≤ S →
      Dice.new N (.n S) (mkState rng) =
        .ok (freshDice N (.n S) (mkState rng), bumpState (mkState rng) N N)) := by
  refine ⟨?_, ?_, ?_, ?_, ?_, ?_⟩
  · intro n s
    rw [countRoll]
    by_cases hc : s.ctx.rolls + n > s.ctx.maxRolls
    · simp [hc]
    · simp [hc]
  · intro d s d' s' h
    exact (addRoll_ok h).2.1
  · intro rng
    rw [Dice.new, rollDice_tooMany (by simp [DieSize.ok]) 1001 (mkState rng)
      (by show (0 : Nat) ≤ 1000; omega) (by show (1000 : Nat) < 0 + 1001; omega)]
  · intro rng
    have hdc := diceNew_eq (show (DieSize.n 1).ok by simp [DieSize.ok]) 1 (mkState rng)
      (by show 0 + 1 ≤ 1000; omega)
    have hvals : (freshDice 1 (.n 1) (mkState rng)).values = [mkRolledDie (.n 1) (rng 0)] := by
      simp [freshDice, mkState, show List.range 1 = [0] from rfl]
    have hloop := rerollLoop_ones 1000 (mkRolledDie (.n 1) (rng 0))
      (bumpState (mkState rng) 1 1) (mkRolledDie_one _)
      (by show 0 + 1 ≤ 1000; omega) (by show 1000 + 1 - (0 + 1) ≤ 1000; omega)
    rw [evalOperatedDice]
    simp only [hdc]
    rw [applyOps]
    simp only [SetOp.operateDice, hvals, hloop]
  · intro rng
    have hdc := diceNew_eq (show (DieSize.n 1).ok by simp [DieSize.ok]) 1 (mkState rng)
      (by show 0 + 1 ≤ 1000; omega)
    have hvals : (freshDice 1 (.n 1) (mkState rng)).values = [mkRolledDie (.n 1) (rng 0)] := by
      simp [freshDice, mkState, show List.range 1 = [0] from rfl]
    have hloop := explodeLoop_ones 1000 0 (freshDice 1 (.n 1) (mkState rng))
      (bumpState (mkState rng) 1 1) rfl
      (by rw [hvals]; intro d hd; rw [List.mem_singleton] at hd; rw [hd]; exact mkRolledDie_one _)
      (by rw [hvals]; simp)
      (by show 0 + 1 ≤ 1000; omega) (by show 1000 + 1 - (0 + 1) ≤ 1000; omega)
    rw [evalOperatedDice]
    simp only [hdc]
    rw [applyOps]
    simp only [SetOp.operateDice]
    rw [show (List.range 0) = ([] : List Nat) from rfl] at hloop
    simp only [hloop]
  · intro rng N S hN hS
    exact diceNew_eq (by simpa [DieSize.ok] using hS) N (mkState rng)
      (by show 0 + N ≤ 1000; omega)

/-- Witness for the hypotheses of C2 at a concrete input. -/
theorem claim_C2_wit :
    Dice.new 3 (.n 6) (mkState (fun _ => 0)) =
      .ok (freshDice 3 (.n 6) (mkState (fun _ => 0)), bumpState (mkState (fun _ => 0)) 3 3) :=
  claim_C2.2.2.2.2.2 (fun _ => 0) 3 6 (by decide) (by decide)

/-! ## Claim C4: the mi/ma clamps -/

theorem forceValue_kept (d : Die) (v : Value) : (d.forceValue v).kept = d.kept := rfl

theorem forceValue_number {d : Die} (hwf : d.wf) (v : Value) :
    (d.forceValue v).number = v := by
  obtain ⟨hne, hk⟩ := hwf
  rcases List.eq_nil_or_concat d.values with hv | ⟨l, a, hv⟩
  · exact absurd hv hne
  · rw [List.concat_eq_append] at hv
    rw [hv, List.getLastD_concat] at hk
    rw [Die.forceValue, Die.number, hv]
    simp only [List.dropLast_concat, List.getLast?_concat, Option.map_some]
    show ((l ++ [Lit.update a v]).getLastD _).total = v
    rw [List.getLastD_concat]
    simp [Lit.total, Lit.update, Lit.number, hk, List.getLastD_concat]

theorem sum_map_const {l : List α} {g : α → Value} {c : Value}
    (h : ∀ x ∈ l, g x = c) : (l.map g).sum = l.length * c := by
  induction l with
  | nil => simp
  | cons x tl ih =>
    rw [List.map_cons, List.sum_cons, h x (by simp), ih (fun y hy => h y (by simp [hy]))]
    rw [List.length_cons]
    push_cast
    ring

/-- The per-die transform of `SetOperator.minimum` over the kept set. -/
def miMap (n : Nat) (ds : List Die) : List Die :=
  ds.map (fun d => if d.kept && decide (d.number < (n : Value)) then d.forceValue (n : Value) else d)

/-- The per-die transform of `SetOperator.maximum` over the kept set. -/
def maMap (n : Nat) (ds : List Die) : List Die :=
  ds.map (fun d => if d.kept && decide ((n : Value) < d.number) then d.forceValue (n : Value) else d)

theorem miOp_ok (n : Nat) (dc : Dice) :
    miOp [⟨none, n⟩] dc = .ok { dc with values := miMap n dc.values } := rfl

theorem maOp_ok (n : Nat) (dc : Dice) :
    maOp [⟨none, n⟩] dc = .ok { dc with values := maMap n dc.values } := rfl

theorem mi_die_number {d : Die} {n : Value} (hk : d.kept = true) (hwf : d.wf) :
    (if d.kept && decide (d.number < n) then d.forceValue n else d).number = max d.number n := by
  by_cases hlt : d.number < n
  · rw [if_pos (by simp [hk, hlt])]
    rw [forceValue_number hwf]
    exact (max_eq_right (le_of_lt hlt)).symm
  · rw [if_neg (by simp [hlt])]
    exact (max_eq_left (le_of_not_lt hlt)).symm

theorem ma_die_number {d : Die} {n : Value} (hk : d.kept = true) (hwf : d.wf) :
    (if d.kept && decide (n < d.number) then d.forceValue n else d).number = min d.number n := by
  by_cases hlt : n < d.number
  · rw [if_pos (by simp [hk, hlt])]
    rw [forceValue_number hwf]
    exact (min_eq_right (le_of_lt hlt)).symm
  · rw [if_neg (by simp [hlt])]
    exact (min_eq_left (le_of_not_lt hlt)).symm

theorem mkRolledDie_wf (size : DieSize) (raw : Nat) : (mkRolledDie size raw).wf := by
  refine ⟨by simp [mkRolledDie], ?_⟩
  cases size <;> rfl

theorem mapped_dice_total {dc : Dice} {g : Die → Die} (c : Value)
    (hkeptdc : dc.kept = true)
    (hg : ∀ d ∈ dc.values, (g d).kept = true ∧ (g d).number = c) :
    Dice.total { dc with values := dc.values.map g } = dc.values.length * c := by
  have h1 : (dc.values.map g).filter (·.kept) = dc.values.map g := by
    rw [List.filter_eq_self]
    intro d hd
    rcases List.mem_map.mp hd with ⟨d0, hd0, rfl⟩
    simp [(hg d0 hd0).1]
  show (if dc.kept = true then Dice.number _ else 0) = _
  rw [if_pos hkeptdc]
  show ((Dice.keptset _).map Die.number).sum = _
  rw [show Dice.keptset { dc with values := dc.values.map g } = (dc.values.map g).filter (·.kept) from rfl]
  rw [h1, List.map_map]
  show (List.map (fun d => (g d).number) dc.values).sum = _
  rw [sum_map_const (fun d hd => (hg d hd).2)]

theorem evalMi10d6 (rng : Nat → Nat) (nn : Nat) (c : Value)
    (hcl : ∀ v : Value, 1 ≤ v → v ≤ 6 → max v (nn : Value) = c) :
    ∃ dc s', evalOperatedDice 10 (.n 6) [⟨.mi, [⟨none, nn⟩]⟩] (mkState rng) = .ok (dc, s') ∧
      dc.total = 10 * c := by
  have hdc := diceNew_eq (show (DieSize.n 6).ok by simp [DieSize.ok]) 10 (mkState rng)
    (by show 0 + 10 ≤ 1000; omega)
  refine ⟨{ freshDice 10 (.n 6) (mkState rng) with values := miMap nn (freshDice 10 (.n 6) (mkState rng)).values }, bumpState (mkState rng) 10 10, ?_, ?_⟩
  · rw [evalOperatedDice]
    simp only [hdc]
    rw [applyOps]
    simp only [SetOp.operateDice, miOp_ok]
    rw [applyOps]
  · rw [show ({ freshDice 10 (.n 6) (mkState rng) with values := miMap nn (freshDice 10 (.n 6) (mkState rng)).values } : Dice).total = ((freshDice 10 (.n 6) (mkState rng)).values.length : Value) * c from mapped_dice_total c rfl ?_]
    · simp [freshDice]
    · intro d hd
      rcases List.mem_map.mp hd with ⟨t, -, rfl⟩
      have hb := mkRolledDie_number_n (by omega : (1 : Int) ≤ 6) ((mkState rng).rng ((mkState rng).idx + t))
      have hwf := mkRolledDie_wf (.n 6) ((mkState rng).rng ((mkState rng).idx + t))
      constructor
      · by_cases hlt : (mkRolledDie (DieSize.n 6) ((mkState rng).rng ((mkState rng).idx + t))).number < (nn : Value) <;>
          simp [hlt, forceValue_kept, mkRolledDie_kept]
      · rw [mi_die_number (mkRolledDie_kept _ _) hwf]
        exact hcl _ hb.1 (by exact_mod_cast hb.2)

theorem evalMa10d6 (rng : Nat → Nat) (nn : Nat) (c : Value)
    (hcl : ∀ v : Value, 1 ≤ v → v ≤ 6 → min v (nn : Value) = c) :
    ∃ dc s', evalOperatedDice 10 (.n 6) [⟨.ma, [⟨none, nn⟩]⟩] (mkState rng) = .ok (dc, s') ∧
      dc.total = 10 * c := by
  have hdc := diceNew_eq (show (DieSize.n 6).ok by simp [DieSize.ok]) 10 (mkState rng)
    (by show 0 + 10 ≤ 1000; omega)
  refine ⟨{ freshDice 10 (.n 6) (mkState rng) with values := maMap nn (freshDice 10 (.n 6) (mkState rng)).values }, bumpState (mkState rng) 10 10, ?_, ?_⟩
  · rw [evalOperatedDice]
    simp only [hdc]
    rw [applyOps]
    simp only [SetOp.operateDice, maOp_ok]
    rw [applyOps]
  · rw [show ({ freshDice 10 (.n 6) (mkState rng) with values := maMap nn (freshDice 10 (.n 6) (mkState rng)).values } : Dice).total = ((freshDice 10 (.n 6) (mkState rng)).values.length : Value) * c from mapped_dice_total c rfl ?_]
    · simp [freshDice]
    · intro d hd
      rcases List.mem_map.mp hd with ⟨t, -, rfl⟩
      have hb := mkRolledDie_number_n (by omega : (1 : Int) ≤ 6) ((mkState rng).rng ((mkState rng).idx + t))
      have hwf := mkRolledDie_wf (.n 6) ((mkState rng).rng ((mkState rng).idx + t))
      constructor
      · by_cases hlt : (nn : Value) < (mkRolledDie (DieSize.n 6) ((mkState rng).rng ((mkState rng).idx + t))).number <;>
          simp [hlt, forceValue_kept, mkRolledDie_kept]
      · rw [ma_die_number (mkRolledDie_kept _ _) hwf]
        exact hcl _ hb.1 (by exact_mod_cast hb.2)

/-- C4: `mi n`/`ma n` raise `ValueError` when the last selector has a
category; otherwise every kept die below (resp. above) `n` gets `n` appended
to its last literal's history, so every kept die afterwards reads
`max(previous, n)` (resp. `min(previous, n)`) and unkept dice are untouched;
hence for every RNG stream `10d6mi6 = 60`, `10d6ma1 = 10`, `10d6mi10 = 100`
and `10d6ma0 = 0`. -/
theorem claim_C4 :
    (∀ (sels : List SetSelector) (dc : Dice) (c : SelCat),
      (sels.getLastD ⟨none, 0⟩).cat = some c →
      miOp sels dc = .error .valueErr ∧ maOp sels dc = .error .valueErr) ∧
    (∀ (n : Nat) (dc dc' : Dice), miOp [⟨none, n⟩] dc = .ok dc' →
      ∃ g, dc'.values = dc.values.map g ∧
        ∀ d ∈ dc.values, (d.kept = true → d.wf → (g d).number = max d.number (n : Value)) ∧
          (d.kept = false → g d = d)) ∧
    (∀ (n : Nat) (dc dc' : Dice), maOp [⟨none, n⟩] dc = .ok dc' →
      ∃ g, dc'.values = dc.values.map g ∧
        ∀ d ∈ dc.values, (d.kept = true → d.wf → (g d).number = min d.number (n : Value)) ∧
          (d.kept = false → g d = d)) ∧
    (∀ rng : Nat → Nat, ∃ dc s',
      evalOperatedDice 10 (.n 6) [⟨.mi, [⟨none, 6⟩]⟩] (mkState rng) = .ok (dc, s') ∧ dc.total = 60) ∧
    (∀ rng : Nat → Nat, ∃ dc s',
      evalOperatedDice 10 (.n 6) [⟨.ma, [⟨none, 1⟩]⟩] (mkState rng) = .ok (dc, s') ∧ dc.total = 10) ∧
    (∀ rng : Nat → Nat, ∃ dc s',
      evalOperatedDice 10 (.n 6) [⟨.mi, [⟨none, 10⟩]⟩] (mkState rng) = .ok (dc, s') ∧ dc.total = 100) ∧
    (∀ rng : Nat → Nat, ∃ dc s',
      evalOperatedDice 10 (.n 6) [⟨.ma, [⟨none, 0⟩]⟩] (mkState rng) = .ok (dc, s') ∧ dc.total = 0) := by
  refine ⟨?_, ?_, ?_, ?_, ?_, ?_, ?_⟩
  · intro sels dc c hc
    constructor
    · rw [miOp, hc]
    · rw [maOp, hc]
  · intro n dc dc' h
    rw [miOp_ok] at h
    injection h with h2
    refine ⟨fun d => if d.kept && decide (d.number < (n : Value)) then d.forceValue (n : Value) else d, ?_, ?_⟩
    · exact congrArg Dice.values h2.symm
    · intro d hd
      constructor
      · intro hk hwf
        exact mi_die_number hk hwf
      · intro hk
        simp [hk]
  · intro n dc dc' h
    rw [maOp_ok] at h
    injection h with h2
    refine ⟨fun d => if d.kept && decide ((n : Value) < d.number) then d.forceValue (n : Value) else d, ?_, ?_⟩
    · exact congrArg Dice.values h2.symm
    · intro d hd
      constructor
      · intro hk hwf
        exact ma_die_number hk hwf
      · intro hk
        simp [hk]
  · intro rng
    obtain ⟨dc, s', he, ht⟩ := evalMi10d6 rng 6 6 (fun v h1 h6 => by push_cast; rw [max_eq_right h6])
    exact ⟨dc, s', he, by rw [ht]; norm_num⟩
  · intro rng
    obtain ⟨dc, s', he, ht⟩ := evalMa10d6 rng 1 1 (fun v h1 h6 => by push_cast; rw [min_eq_right h1])
    exact ⟨dc, s', he, by rw [ht]; norm_num⟩
  · intro rng
    obtain ⟨dc, s', he, ht⟩ := evalMi10d6 rng 10 10 (fun v h1 h6 => by push_cast; rw [max_eq_right (by linarith : v ≤ (10 : Value))])
    exact ⟨dc, s', he, by rw [ht]; norm_num⟩
  · intro rng
    obtain ⟨dc, s', he, ht⟩ := evalMa10d6 rng 0 0 (fun v h1 h6 => by push_cast; rw [min_eq_right (by linarith : (0 : Value) ≤ v)])
    exact ⟨dc, s', he, by rw [ht]; norm_num⟩

/-- Witness for the hypotheses of C4 at a concrete input. -/
theorem claim_C4_wit :
    miOp [⟨some SelCat.l, 1⟩] { num := 0, size := .n 6, values := [] } = .error .valueErr ∧
    maOp [⟨some SelCat.l, 1⟩] { num := 0, size := .n 6, values := [] } = .error .valueErr :=
  claim_C4.1 [⟨some SelCat.l, 1⟩] { num := 0, size := .n 6, values := [] } SelCat.l rfl

/-! ## Sorting machinery for the selector characterization

Python's `sorted` is stable, so sorting the kept indices (already in
position order) by total is sorting by the strict lexicographic key
(total, position); `isort` realizes it and these lemmas characterize it. -/

theorem insort_perm (lt : Nat → Nat → Bool) (x : Nat) :
    ∀ l : List Nat, (insort lt x l).Perm (x :: l) := by
  intro l
  induction l with
  | nil => rfl
  | cons y ys ih =>
    by_cases hc : lt x y
    · rw [insort, if_pos hc]
    · rw [insort, if_neg hc]
      exact List.Perm.trans (List.Perm.cons y ih) (List.Perm.swap x y ys)

theorem isort_perm (lt : Nat → Nat → Bool) : ∀ l : List Nat, (isort lt l).Perm l := by
  intro l
  induction l with
  | nil => rfl
  | cons x xs ih => exact (insort_perm lt x (isort lt xs)).trans (List.Perm.cons x ih)

theorem insort_sorted {lt : Nat → Nat → Bool}
    (htrans : ∀ a b c, lt a b = true → lt b c = true → lt a c = true) :
    ∀ {l : List Nat} {x : Nat}, (∀ y ∈ l, lt x y = true ∨ lt y x = true) →
    l.Pairwise (fun a b => lt a b = true) →
    (insort lt x l).Pairwise (fun a b => lt a b = true) := by
  intro l
  induction l with
  | nil =>
    intro x _ _
    simp [insort]
  | cons y ys ih =>
    intro x hconn hp
    rw [List.pairwise_cons] at hp
    obtain ⟨hy, hys⟩ := hp
    by_cases hc : lt x y
    · rw [insort, if_pos hc]
      refine List.pairwise_cons.mpr ⟨?_, List.pairwise_cons.mpr ⟨hy, hys⟩⟩
      intro z hz
      rcases List.mem_cons.mp hz with rfl | hz
      · exact hc
      · exact htrans x y z hc (hy z hz)
    · rw [insort, if_neg hc]
      have hxy : lt y x = true := by
        rcases hconn y (by simp) with h | h
        · exact absurd h hc
        · exact h
      refine List.pairwise_cons.mpr ⟨?_, ih (fun z hz => hconn z (by simp [hz])) hys⟩
      intro z hz
      rcases mem_insort.mp hz with rfl | hz
      · exact hxy
      · exact hy z hz

theorem isort_sorted {lt : Nat → Nat → Bool}
    (htrans : ∀ a b c, lt a b = true → lt b c = true → lt a c = true) :
    ∀ {l : List Nat}, (∀ a b, a ∈ l → b ∈ l → a ≠ b → lt a b = true ∨ lt b a = true) →
    l.Nodup → (isort lt l).Pairwise (fun a b => lt a b = true) := by
  intro l
  induction l with
  | nil =>
    intro _ _
    simp [isort]
  | cons x xs ih =>
    intro hconn hnd
    rw [List.nodup_cons] at hnd
    rw [isort]
    refine insort_sorted htrans ?_
      (ih (fun a b ha hb => hconn a b (by simp [ha]) (by simp [hb])) hnd.2)
    intro y hy
    have hyx : y ∈ xs := mem_isort.mp hy
    exact hconn x y (by simp) (by simp [hyx]) (fun he => hnd.1 (he ▸ hyx))

theorem sorted_unique {lt : Nat → Nat → Bool}
    (hasym : ∀ a b, lt a b = true → lt b a = true → False) :
    ∀ {l1 l2 : List Nat}, l1.Perm l2 → l1.Pairwise (fun a b => lt a b = true) →
    l2.Pairwise (fun a b => lt a b = true) → l1 = l2 := by
  intro l1 l2 hp h1 h2
  haveI : IsAntisymm Nat (fun a b => lt a b = true) :=
    ⟨fun a b hab hba => absurd hab (fun h => hasym a b h hba)⟩
  exact List.eq_of_perm_of_sorted hp h1 h2

theorem isort_filter {lt : Nat → Nat → Bool}
    (htrans : ∀ a b c, lt a b = true → lt b c = true → lt a c = true)
    (hasym : ∀ a b, lt a b = true → lt b a = true → False)
    {l : List Nat} (p : Nat → Bool)
    (hconn : ∀ a b, a ∈ l → b ∈ l → a ≠ b → lt a b = true ∨ lt b a = true)
    (hnd : l.Nodup) :
    isort lt (l.filter p) = (isort lt l).filter p := by
  refine sorted_unique hasym ?_ ?_ ?_
  · exact (isort_perm lt (l.filter p)).trans (List.Perm.filter p (isort_perm lt l)).symm
  · exact isort_sorted htrans
      (fun a b ha hb => hconn a b (List.mem_filter.mp ha).1 (List.mem_filter.mp hb).1)
      (hnd.filter p)
  · exact List.Pairwise.filter p (isort_sorted htrans hconn hnd)

theorem insort_congr {lt lt' : Nat → Nat → Bool} {x : Nat} :
    ∀ {l : List Nat}, (∀ y ∈ l, lt x y = lt' x y) → insort lt x l = insort lt' x l := by
  intro l
  induction l with
  | nil =>
    intro _
    rfl
  | cons y ys ih =>
    intro h
    rw [insort, insort, h y (by simp)]
    by_cases hc : lt' x y = true
    · rw [if_pos hc, if_pos hc]
    · rw [if_neg hc, if_neg hc, ih (fun z hz => h z (by simp [hz]))]

theorem isort_congr (lt lt' : Nat → Nat → Bool) :
    ∀ {l : List Nat}, (∀ a b, a ∈ l → b ∈ l → lt a b = lt' a b) →
    isort lt l = isort lt' l := by
  intro l
  induction l with
  | nil =>
    intro _
    rfl
  | cons x xs ih =>
    intro h
    rw [isort, isort, ih (fun a b ha hb => h a b (by simp [ha]) (by simp [hb]))]
    exact insort_congr (fun y hy => h x y (by simp) (by simp [mem_isort.mp hy]))

theorem take_filter_ne {j : Nat} : ∀ {l : List Nat} {n : Nat}, j ∉ l.take n →
    (l.filter (fun i => !(decide (i = j)))).take n = l.take n := by
  intro l
  induction l with
  | nil =>
    intro n _
    simp
  | cons a tl ih =>
    intro n hj
    cases n with
    | zero => simp
    | succ m =>
      rw [List.take_succ_cons] at hj
      have ha : ¬(a = j) := fun h => hj (by simp [h])
      have hj2 : j ∉ tl.take m := fun h => hj (by simp [h])
      rw [List.filter_cons, if_pos (by simp [ha]), List.take_succ_cons,
        List.take_succ_cons, ih hj2]

theorem filter_ne_of_not_mem {j : Nat} {l : List Nat} (hj : j ∉ l) :
    l.filter (fun i => !(decide (i = j))) = l := by
  rw [List.filter_eq_self]
  intro a ha
  simp
  exact fun he => hj (he ▸ ha)

theorem filter_comm (p q : α → Bool) (l : List α) :
    (l.filter p).filter q = (l.filter q).filter p := by
  rw [List.filter_filter, List.filter_filter]
  exact List.filter_congr (fun x _ => Bool.and_comm _ _)

theorem ltKeyAsc_iff [NumberLike α] (xs : List α) (i j : Nat) :
    ltKeyAsc xs i j = true ↔
    (totalAt xs i < totalAt xs j ∨ (totalAt xs i = totalAt xs j ∧ i < j)) := by
  rw [ltKeyAsc]
  simp

theorem ltKeyDesc_iff [NumberLike α] (xs : List α) (i j : Nat) :
    ltKeyDesc xs i j = true ↔
    (totalAt xs j < totalAt xs i ∨ (totalAt xs i = totalAt xs j ∧ i < j)) := by
  rw [ltKeyDesc]
  simp

theorem ltKeyAsc_trans [NumberLike α] (xs : List α) :
    ∀ a b c, ltKeyAsc xs a b = true → ltKeyAsc xs b c = true → ltKeyAsc xs a c = true := by
  intro a b c hab hbc
  rw [ltKeyAsc_iff] at *
  rcases hab with h1 | ⟨e1, i1⟩ <;> rcases hbc with h2 | ⟨e2, i2⟩
  · exact Or.inl (lt_trans h1 h2)
  · exact Or.inl (e2 ▸ h1)
  · exact Or.inl (e1 ▸ h2)
  · exact Or.inr ⟨e1.trans e2, lt_trans i1 i2⟩

theorem ltKeyDesc_trans [NumberLike α] (xs : List α) :
    ∀ a b c, ltKeyDesc xs a b = true → ltKeyDesc xs b c = true → ltKeyDesc xs a c = true := by
  intro a b c hab hbc
  rw [ltKeyDesc_iff] at *
  rcases hab with h1 | ⟨e1, i1⟩ <;> rcases hbc with h2 | ⟨e2, i2⟩
  · exact Or.inl (lt_trans h2 h1)
  · exact Or.inl (e2 ▸ h1)
  · exact Or.inl (by rw [e1]; exact h2)
  · exact Or.inr ⟨e1.trans e2, lt_trans i1 i2⟩

theorem ltKeyAsc_conn [NumberLike α] (xs : List α) :
    ∀ a b, a ≠ b → ltKeyAsc xs a b = true ∨ ltKeyAsc xs b a = true := by
  intro a b hne
  rcases lt_trichotomy (totalAt xs a) (totalAt xs b) with h | h | h
  · exact Or.inl ((ltKeyAsc_iff xs a b).mpr (Or.inl h))
  · rcases Nat.lt_or_ge a b with hi | hi
    · exact Or.inl ((ltKeyAsc_iff xs a b).mpr (Or.inr ⟨h, hi⟩))
    · exact Or.inr ((ltKeyAsc_iff xs b a).mpr (Or.inr ⟨h.symm, by omega⟩))
  · exact Or.inr ((ltKeyAsc_iff xs b a).mpr (Or.inl h))

theorem ltKeyDesc_conn [NumberLike α] (xs : List α) :
    ∀ a b, a ≠ b → ltKeyDesc xs a b = true ∨ ltKeyDesc xs b a = true := by
  intro a b hne
  rcases lt_trichotomy (totalAt xs a) (totalAt xs b) with h | h | h
  · exact Or.inr ((ltKeyDesc_iff xs b a).mpr (Or.inl h))
  · rcases Nat.lt_or_ge a b with hi | hi
    · exact Or.inl ((ltKeyDesc_iff xs a b).mpr (Or.inr ⟨h, hi⟩))
    · exact Or.inr ((ltKeyDesc_iff xs b a).mpr (Or.inr ⟨h.symm, by omega⟩))
  · exact Or.inl ((ltKeyDesc_iff xs a b).mpr (Or.inl h))

theorem ltKeyAsc_asym [NumberLike α] (xs : List α) :
    ∀ a b, ltKeyAsc xs a b = true → ltKeyAsc xs b a = true → False := by
  intro a b h1 h2
  rw [ltKeyAsc_iff] at h1 h2
  rcases h1 with h1 | ⟨e1, i1⟩ <;> rcases h2 with h2 | ⟨e2, i2⟩
  · exact absurd (lt_trans h1 h2) (lt_irrefl _)
  · exact absurd h1 (by rw [e2]; exact lt_irrefl _)
  · exact absurd h2 (by rw [e1]; exact lt_irrefl _)
  · omega

theorem ltKeyDesc_asym [NumberLike α] (xs : List α) :
    ∀ a b, ltKeyDesc xs a b = true → ltKeyDesc xs b a = true → False := by
  intro a b h1 h2
  rw [ltKeyDesc_iff] at h1 h2
  rcases h1 with h1 | ⟨e1, i1⟩ <;> rcases h2 with h2 | ⟨e2, i2⟩
  · exact absurd (lt_trans h1 h2) (lt_irrefl _)
  · exact absurd h1 (by rw [e2]; exact lt_irrefl _)
  · exact absurd h2 (by rw [e1]; exact lt_irrefl _)
  · omega

/-! ## Invariance of selection under dropping an unselected element

The Python `keep` loop re-evaluates `select(target)` before each drop; these
lemmas show a drop of an unselected element never changes the selection, so
the loop is equivalent to selecting once up front. -/

theorem totalAt_updateAt_ne [NumberLike α] {xs : List α} {j i : Nat}
    (hne : i ≠ j) (f : α → α) : totalAt (updateAt f j xs) i = totalAt xs i := by
  rw [totalAt, totalAt, get?_updateAt, if_neg hne]

theorem keptAt_updateAt_ne [NumberLike α] {xs : List α} {j i : Nat}
    (hne : i ≠ j) (f : α → α) : keptAt (updateAt f j xs) i = keptAt xs i := by
  rw [keptAt, keptAt, get?_updateAt, if_neg hne]

theorem keptAt_dropAt_self [NumberLike α] (xs : List α) (j : Nat) :
    keptAt (updateAt NumberLike.dropIt j xs) j = false := by
  rw [keptAt, get?_updateAt, if_pos rfl]
  cases hx : xs.get? j
  · rfl
  · show NumberLike.kept (NumberLike.dropIt _) = false
    exact NumberLike.kept_dropIt _

theorem keptIdx_dropAt [NumberLike α] (xs : List α) (j : Nat) :
    keptIdx (updateAt NumberLike.dropIt j xs) =
      (keptIdx xs).filter (fun i => !(decide (i = j))) := by
  rw [keptIdx, keptIdx, length_updateAt, List.filter_filter]
  refine List.filter_congr ?_
  intro i hi
  by_cases hij : i = j
  · subst hij
    rw [keptAt_dropAt_self]
    simp
  · rw [keptAt_updateAt_ne hij]
    simp [hij]

theorem opSelectGo_none_mem [NumberLike α] {xs : List α} :
    ∀ {sels : List SetSelector} {out : List Nat} {i : Nat},
    i ∈ opSelectGo xs none sels out ↔ i ∈ out ∨ ∃ sl ∈ sels, i ∈ sl.sel xs none := by
  intro sels
  induction sels with
  | nil =>
    intro out i
    simp [opSelectGo]
  | cons sl rest ih =>
    intro out i
    show i ∈ opSelectGo xs none rest (unionIdx out (SetSelector.sel sl xs none)) ↔ _
    rw [ih]
    constructor
    · rintro (h | ⟨sl2, hs2, hi2⟩)
      · rcases mem_unionIdx.mp h with h | h
        · exact Or.inl h
        · exact Or.inr ⟨sl, by simp, h⟩
      · exact Or.inr ⟨sl2, by simp [hs2], hi2⟩
    · rintro (h | ⟨sl2, hs2, hi2⟩)
      · exact Or.inl (mem_unionIdx.mpr (Or.inl h))
      · rcases List.mem_cons.mp hs2 with rfl | h2
        · exact Or.inl (mem_unionIdx.mpr (Or.inr hi2))
        · exact Or.inr ⟨sl2, h2, hi2⟩

theorem mem_opSelect_none [NumberLike α] {xs : List α} {sels : List SetSelector}
    {i : Nat} : i ∈ opSelect sels xs none ↔ ∃ sl ∈ sels, i ∈ sl.sel xs none := by
  rw [opSelect, opSelectGo_none_mem]
  simp

theorem keptIdx_nodup [NumberLike α] (xs : List α) : (keptIdx xs).Nodup :=
  (List.nodup_range _).filter _

theorem sel_dropAt [NumberLike α] {xs : List α} {j : Nat} (sl : SetSelector)
    (hj : j ∉ sl.sel xs none) :
    sl.sel (updateAt NumberLike.dropIt j xs) none = sl.sel xs none := by
  have hpoint : ∀ g : Value → Bool,
      j ∉ (keptIdx xs).filter (fun i => g (totalAt xs i)) →
      (keptIdx (updateAt NumberLike.dropIt j xs)).filter
        (fun i => g (totalAt (updateAt NumberLike.dropIt j xs) i)) =
      (keptIdx xs).filter (fun i => g (totalAt xs i)) := by
    intro g hjg
    rw [keptIdx_dropAt]
    have h1 : ((keptIdx xs).filter (fun i => !(decide (i = j)))).filter
        (fun i => g (totalAt (updateAt NumberLike.dropIt j xs) i)) =
        ((keptIdx xs).filter (fun i => !(decide (i = j)))).filter
        (fun i => g (totalAt xs i)) := by
      refine List.filter_congr ?_
      intro i hi
      have hij : i ≠ j := by
        have h2 := (List.mem_filter.mp hi).2
        simpa using h2
      rw [totalAt_updateAt_ne hij]
    rw [h1, filter_comm, filter_ne_of_not_mem hjg]
  have hsort : ∀ lt lt' : List α → Nat → Nat → Bool,
      (∀ zs a b, lt zs a b = ltKeyAsc zs a b ∧ lt' zs a b = ltKeyAsc zs a b) → True := fun _ _ _ => trivial
  rcases hc : sl.cat with - | c
  · simp only [SetSelector.sel, hc] at hj ⊢
    exact hpoint (fun v => decide (v = (sl.num : Value))) hj
  · cases c with
    | l =>
      simp only [SetSelector.sel, hc] at hj ⊢
      rw [keptIdx_dropAt]
      rw [isort_congr (ltKeyAsc (updateAt NumberLike.dropIt j xs)) (ltKeyAsc xs) ?_]
      · rw [isort_filter (ltKeyAsc_trans xs) (ltKeyAsc_asym xs) _
          (fun a b _ _ hne => ltKeyAsc_conn xs a b hne) (keptIdx_nodup xs)]
        exact take_filter_ne hj
      · intro a b ha hb
        have hna : a ≠ j := by simpa using (List.mem_filter.mp ha).2
        have hnb : b ≠ j := by simpa using (List.mem_filter.mp hb).2
        rw [ltKeyAsc, ltKeyAsc, totalAt_updateAt_ne hna, totalAt_updateAt_ne hnb]
    | h =>
      simp only [SetSelector.sel, hc] at hj ⊢
      rw [keptIdx_dropAt]
      rw [isort_congr (ltKeyDesc (updateAt NumberLike.dropIt j xs)) (ltKeyDesc xs) ?_]
      · rw [isort_filter (ltKeyDesc_trans xs) (ltKeyDesc_asym xs) _
          (fun a b _ _ hne => ltKeyDesc_conn xs a b hne) (keptIdx_nodup xs)]
        exact take_filter_ne hj
      · intro a b ha hb
        have hna : a ≠ j := by simpa using (List.mem_filter.mp ha).2
        have hnb : b ≠ j := by simpa using (List.mem_filter.mp hb).2
        rw [ltKeyDesc, ltKeyDesc, totalAt_updateAt_ne hna, totalAt_updateAt_ne hnb]
    | lt =>
      simp only [SetSelector.sel, hc] at hj ⊢
      exact hpoint (fun v => decide (v < (sl.num : Value))) hj
    | gt =>
      simp only [SetSelector.sel, hc] at hj ⊢
      exact hpoint (fun v => decide ((sl.num : Value) < v)) hj

theorem opSelectGo_congr_sel [NumberLike α] {xs ys : List α} :
    ∀ {sels : List SetSelector}, (∀ sl ∈ sels, sl.sel ys none = sl.sel xs none) →
    ∀ out, opSelectGo ys none sels out = opSelectGo xs none sels out := by
  intro sels
  induction sels with
  | nil =>
    intro _ out
    rfl
  | cons sl rest ih =>
    intro h out
    show opSelectGo ys none rest (unionIdx out (sl.sel ys none)) = _
    rw [h sl (by simp), ih (fun sl2 hs2 => h sl2 (by simp [hs2]))]
    rfl

theorem opSelect_dropAt [NumberLike α] {xs : List α} {j : Nat}
    {sels : List SetSelector} (hj : j ∉ opSelect sels xs none) :
    opSelect sels (updateAt NumberLike.dropIt j xs) none = opSelect sels xs none :=
  opSelectGo_congr_sel
    (fun sl hsl => sel_dropAt sl
      (fun hmem => hj (mem_opSelect_none.mpr ⟨sl, hsl, hmem⟩))) []

/-! ## The keep/drop characterization -/

theorem keepLoop_get [NumberLike α] (sels : List SetSelector) :
    ∀ (toProcess : List Nat) (xs : List α), toProcess.Nodup →
    (∀ i ∈ toProcess, keptAt xs i = true) → ∀ m,
    (keepLoop sels toProcess xs).get? m =
      if m ∈ toProcess ∧ m ∉ opSelect sels xs none
      then (xs.get? m).map NumberLike.dropIt else xs.get? m := by
  intro toProcess
  induction toProcess with
  | nil =>
    intro xs _ _ m
    simp [keepLoop]
  | cons i rest ih =>
    intro xs hnd hka m
    rw [List.nodup_cons] at hnd
    have hstep : keepLoop sels (i :: rest) xs = keepLoop sels rest
        (if (opSelect sels xs none).contains i = true then xs
         else updateAt NumberLike.dropIt i xs) := rfl
    by_cases hsel : i ∈ opSelect sels xs none
    · have hcont : (opSelect sels xs none).contains i = true := by
        rw [show (opSelect sels xs none).contains i = List.elem i (opSelect sels xs none) from rfl]
        rw [List.elem_eq_mem]
        simp [hsel]
      rw [hstep, if_pos hcont, ih xs hnd.2 (fun z hz => hka z (by simp [hz])) m]
      by_cases hm : m = i
      · subst hm
        rw [if_neg (fun hcon => hcon.2 hsel), if_neg (fun hcon => hcon.2 hsel)]
      · by_cases hP : m ∉ opSelect sels xs none
        · by_cases hr : m ∈ rest
          · rw [if_pos ⟨hr, hP⟩, if_pos ⟨by simp [hr], hP⟩]
          · rw [if_neg (fun hcon => hr hcon.1), if_neg (fun hcon => hr (by
              rcases List.mem_cons.mp hcon.1 with h | h
              · exact absurd h hm
              · exact h))]
        · rw [if_neg (fun hcon => hP hcon.2), if_neg (fun hcon => hP hcon.2)]
    · have hcont : (opSelect sels xs none).contains i = false := by
        rw [show (opSelect sels xs none).contains i = List.elem i (opSelect sels xs none) from rfl]
        rw [List.elem_eq_mem]
        simp [hsel]
      rw [hstep, if_neg (by rw [hcont]; simp)]
      have hinv := @opSelect_dropAt _ _ _ _ sels hsel
      rw [ih (updateAt NumberLike.dropIt i xs) hnd.2 ?_ m, hinv]
      · simp only [get?_updateAt]
        by_cases hm : m = i
        · subst hm
          rw [if_neg (fun hcon => hnd.1 hcon.1), if_pos rfl, if_pos ⟨by simp, hsel⟩]
        · rw [if_neg hm]
          by_cases hcond : m ∈ rest ∧ m ∉ opSelect sels xs none
          · rw [if_pos hcond, if_pos ⟨by simp [hcond.1], hcond.2⟩]
          · rw [if_neg hcond, if_neg (fun hcon => hcond ⟨by
              rcases List.mem_cons.mp hcon.1 with h | h
              · exact absurd h hm
              · exact h, hcon.2⟩)]
      · intro z hz
        rw [keptAt_updateAt_ne (show z ≠ i from fun he => hnd.1 (he ▸ hz))]
        exact hka z (by simp [hz])

theorem keepL_get [NumberLike α] (sels : List SetSelector) (xs : List α) (m : Nat) :
    (keepL sels xs).get? m =
      if m ∈ keptIdx xs ∧ m ∉ opSelect sels xs none
      then (xs.get? m).map NumberLike.dropIt else xs.get? m :=
  keepLoop_get sels (keptIdx xs) xs (keptIdx_nodup xs)
    (fun i hi => (mem_keptIdx hi).2) m

theorem dropL_get [NumberLike α] (sels : List SetSelector) (xs : List α) (m : Nat) :
    (dropL sels xs).get? m =
      if m ∈ opSelect sels xs none
      then (xs.get? m).map NumberLike.dropIt else xs.get? m := by
  show (List.mapIdx _ xs).get? m = _
  rw [List.get?_eq_getElem?, List.getElem?_mapIdx, ← List.get?_eq_getElem?]
  by_cases hm : m ∈ opSelect sels xs none
  · have hcont : (opSelect sels xs none).contains m = true := by
      rw [show (opSelect sels xs none).contains m = List.elem m (opSelect sels xs none) from rfl]
      rw [List.elem_eq_mem]
      simp [hm]
    rw [if_pos hm]
    have hfn : (fun x : α => if (opSelect sels xs none).contains m = true
        then NumberLike.dropIt x else x) = NumberLike.dropIt :=
      funext (fun x => if_pos hcont)
    rw [hfn]
  · have hcont : (opSelect sels xs none).contains m = false := by
      rw [show (opSelect sels xs none).contains m = List.elem m (opSelect sels xs none) from rfl]
      rw [List.elem_eq_mem]
      simp [hm]
    rw [if_neg hm]
    have hfn : (fun x : α => if (opSelect sels xs none).contains m = true
        then NumberLike.dropIt x else x) = id :=
      funext (fun x => if_neg (by rw [hcont]; simp))
    rw [hfn, Option.map_id]
    rfl

/-! ## Selector semantics -/

theorem sel_literal_mem [NumberLike α] (xs : List α) (n : Nat) (i : Nat) :
    i ∈ SetSelector.sel ⟨none, n⟩ xs none ↔
      i ∈ keptIdx xs ∧ totalAt xs i = (n : Value) := by
  show i ∈ (keptIdx xs).filter _ ↔ _
  rw [List.mem_filter]
  simp

theorem sel_lt_mem [NumberLike α] (xs : List α) (n : Nat) (i : Nat) :
    i ∈ SetSelector.sel ⟨some .lt, n⟩ xs none ↔
      i ∈ keptIdx xs ∧ totalAt xs i < (n : Value) := by
  show i ∈ (keptIdx xs).filter _ ↔ _
  rw [List.mem_filter]
  simp

theorem sel_gt_mem [NumberLike α] (xs : List α) (n : Nat) (i : Nat) :
    i ∈ SetSelector.sel ⟨some .gt, n⟩ xs none ↔
      i ∈ keptIdx xs ∧ (n : Value) < totalAt xs i := by
  show i ∈ (keptIdx xs).filter _ ↔ _
  rw [List.mem_filter]
  simp

theorem sel_low_spec [NumberLike α] (xs : List α) (n : Nat) :
    (SetSelector.sel ⟨some .l, n⟩ xs none).length = min n (keptIdx xs).length ∧
    ∀ i ∈ SetSelector.sel ⟨some .l, n⟩ xs none, ∀ j ∈ keptIdx xs,
      j ∉ SetSelector.sel ⟨some .l, n⟩ xs none →
      (totalAt xs i < totalAt xs j ∨ (totalAt xs i = totalAt xs j ∧ i < j)) := by
  have hsort := isort_sorted (ltKeyAsc_trans xs)
    (fun a b _ _ hne => ltKeyAsc_conn xs a b hne) (keptIdx_nodup xs)
  have hperm := isort_perm (ltKeyAsc xs) (keptIdx xs)
  constructor
  · show ((isort (ltKeyAsc xs) (keptIdx xs)).take n).length = _
    rw [List.length_take, hperm.length_eq]
  · intro i hi j hj hjn
    have hjL : j ∈ isort (ltKeyAsc xs) (keptIdx xs) := mem_isort.mpr hj
    have hsplit := List.take_append_drop n (isort (ltKeyAsc xs) (keptIdx xs))
    have hjd : j ∈ (isort (ltKeyAsc xs) (keptIdx xs)).drop n := by
      rcases List.mem_append.mp (by rw [hsplit]; exact hjL) with h | h
      · exact absurd h hjn
      · exact h
    have hpw : List.Pairwise (fun a b => ltKeyAsc xs a b = true)
        ((isort (ltKeyAsc xs) (keptIdx xs)).take n ++
         (isort (ltKeyAsc xs) (keptIdx xs)).drop n) := by
      rw [hsplit]
      exact hsort
    have := (List.pairwise_append.mp hpw).2.2 i hi j hjd
    exact (ltKeyAsc_iff xs i j).mp this

theorem sel_high_spec [NumberLike α] (xs : List α) (n : Nat) :
    (SetSelector.sel ⟨some .h, n⟩ xs none).length = min n (keptIdx xs).length ∧
    ∀ i ∈ SetSelector.sel ⟨some .h, n⟩ xs none, ∀ j ∈ keptIdx xs,
      j ∉ SetSelector.sel ⟨some .h, n⟩ xs none →
      (totalAt xs j < totalAt xs i ∨ (totalAt xs i = totalAt xs j ∧ i < j)) := by
  have hsort := isort_sorted (ltKeyDesc_trans xs)
    (fun a b _ _ hne => ltKeyDesc_conn xs a b hne) (keptIdx_nodup xs)
  have hperm := isort_perm (ltKeyDesc xs) (keptIdx xs)
  constructor
  · show ((isort (ltKeyDesc xs) (keptIdx xs)).take n).length = _
    rw [List.length_take, hperm.length_eq]
  · intro i hi j hj hjn
    have hjL : j ∈ isort (ltKeyDesc xs) (keptIdx xs) := mem_isort.mpr hj
    have hsplit := List.take_append_drop n (isort (ltKeyDesc xs) (keptIdx xs))
    have hjd : j ∈ (isort (ltKeyDesc xs) (keptIdx xs)).drop n := by
      rcases List.mem_append.mp (by rw [hsplit]; exact hjL) with h | h
      · exact absurd h hjn
      · exact h
    have hpw : List.Pairwise (fun a b => ltKeyDesc xs a b = true)
        ((isort (ltKeyDesc xs) (keptIdx xs)).take n ++
         (isort (ltKeyDesc xs) (keptIdx xs)).drop n) := by
      rw [hsplit]
      exact hsort
    have := (List.pairwise_append.mp hpw).2.2 i hi j hjd
    exact (ltKeyDesc_iff xs i j).mp this

/-- The `NumberLike` kept flag of a literal is its `kept` field. -/
theorem litNL_kept (l : Lit) : NumberLike.kept l = l.kept := rfl

/-- The `NumberLike` number of a literal is `Lit.number`. -/
theorem litNL_numberv (l : Lit) : NumberLike.numberv l = l.number := rfl

/-! ## Claim C3 -/

/-- C3: `k` drops exactly the kept elements outside the union of the
selectors' selections and `p` drops exactly the selected elements (pointwise
characterization by index); `lN`/`hN` pick `N` kept elements every one of
which is below/above every unselected kept element by total with ties broken
by position, `<N`/`>N`/bare `N` pick the kept elements with total `< n`,
`> n`, `= n`; and on the set `(1,2,3,4,5)`, `k3`, `k<3`, `k>3`, `kl2`,
`kh2`, `p3` total 3, 3, 9, 3, 9, 12. -/
theorem claim_C3 :
    (∀ (α : Type) [NumberLike α] (sels : List SetSelector) (xs : List α) (m : Nat),
      (keepL sels xs).get? m =
        if m ∈ keptIdx xs ∧ m ∉ opSelect sels xs none
        then (xs.get? m).map NumberLike.dropIt else xs.get? m) ∧
    (∀ (α : Type) [NumberLike α] (sels : List SetSelector) (xs : List α) (m : Nat),
      (dropL sels xs).get? m =
        if m ∈ opSelect sels xs none
        then (xs.get? m).map NumberLike.dropIt else xs.get? m) ∧
    (∀ (α : Type) [NumberLike α] (xs : List α) (n i : Nat),
      (i ∈ SetSelector.sel ⟨none, n⟩ xs none ↔
        i ∈ keptIdx xs ∧ totalAt xs i = (n : Value)) ∧
      (i ∈ SetSelector.sel ⟨some .lt, n⟩ xs none ↔
        i ∈ keptIdx xs ∧ totalAt xs i < (n : Value)) ∧
      (i ∈ SetSelector.sel ⟨some .gt, n⟩ xs none ↔
        i ∈ keptIdx xs ∧ (n : Value) < totalAt xs i)) ∧
    (∀ (α : Type) [NumberLike α] (xs : List α) (n : Nat),
      (SetSelector.sel ⟨some .l, n⟩ xs none).length = min n (keptIdx xs).length ∧
      ∀ i ∈ SetSelector.sel ⟨some .l, n⟩ xs none, ∀ j ∈ keptIdx xs,
        j ∉ SetSelector.sel ⟨some .l, n⟩ xs none →
        (totalAt xs i < totalAt xs j ∨ (totalAt xs i = totalAt xs j ∧ i < j))) ∧
    (∀ (α : Type) [NumberLike α] (xs : List α) (n : Nat),
      (SetSelector.sel ⟨some .h, n⟩ xs none).length = min n (keptIdx xs).length ∧
      ∀ i ∈ SetSelector.sel ⟨some .h, n⟩ xs none, ∀ j ∈ keptIdx xs,
        j ∉ SetSelector.sel ⟨some .h, n⟩ xs none →
        (totalAt xs j < totalAt xs i ∨ (totalAt xs i = totalAt xs j ∧ i < j))) ∧
    sumKeptNumber (keepL [⟨none, 3⟩] (mkLits [1, 2, 3, 4, 5])) = 3 ∧
    sumKeptNumber (keepL [⟨some .lt, 3⟩] (mkLits [1, 2, 3, 4, 5])) = 3 ∧
    sumKeptNumber (keepL [⟨some .gt, 3⟩] (mkLits [1, 2, 3, 4, 5])) = 9 ∧
    sumKeptNumber (keepL [⟨some .l, 2⟩] (mkLits [1, 2, 3, 4, 5])) = 3 ∧
    sumKeptNumber (keepL [⟨some .h, 2⟩] (mkLits [1, 2, 3, 4, 5])) = 9 ∧
    sumKeptNumber (dropL [⟨none, 3⟩] (mkLits [1, 2, 3, 4, 5])) = 12 := by
  refine ⟨?_, ?_, ?_, ?_, ?_, ?_, ?_, ?_, ?_, ?_, ?_⟩
  · intro α _ sels xs m
    exact keepL_get sels xs m
  · intro α _ sels xs m
    exact dropL_get sels xs m
  · intro α _ xs n i
    exact ⟨sel_literal_mem xs n i, sel_lt_mem xs n i, sel_gt_mem xs n i⟩
  · intro α _ xs n
    exact sel_low_spec xs n
  · intro α _ xs n
    exact sel_high_spec xs n
  · have h : keepL [(⟨none, 3⟩ : SetSelector)] (mkLits [1, 2, 3, 4, 5]) =
        [⟨[1], false, false⟩, ⟨[2], false, false⟩, ⟨[3], false, true⟩,
         ⟨[4], false, false⟩, ⟨[5], false, false⟩] := by decide
    rw [h]
    simp [sumKeptNumber, litNL_kept, litNL_numberv, Lit.number]
  · have h : keepL [(⟨some .lt, 3⟩ : SetSelector)] (mkLits [1, 2, 3, 4, 5]) =
        [⟨[1], false, true⟩, ⟨[2], false, true⟩, ⟨[3], false, false⟩,
         ⟨[4], false, false⟩, ⟨[5], false, false⟩] := by decide
    rw [h]
    simp [sumKeptNumber, litNL_kept, litNL_numberv, Lit.number]
    norm_num
  · have h : keepL [(⟨some .gt, 3⟩ : SetSelector)] (mkLits [1, 2, 3, 4, 5]) =
        [⟨[1], false, false⟩, ⟨[2], false, false⟩, ⟨[3], false, false⟩,
         ⟨[4], false, true⟩, ⟨[5], false, true⟩] := by decide
    rw [h]
    simp [sumKeptNumber, litNL_kept, litNL_numberv, Lit.number]
    norm_num
  · have h : keepL [(⟨some .l, 2⟩ : SetSelector)] (mkLits [1, 2, 3, 4, 5]) =
        [⟨[1], false, true⟩, ⟨[2], false, true⟩, ⟨[3], false, false⟩,
         ⟨[4], false, false⟩, ⟨[5], false, false⟩] := by decide
    rw [h]
    simp [sumKeptNumber, litNL_kept, litNL_numberv, Lit.number]
    norm_num
  · have h : keepL [(⟨some .h, 2⟩ : SetSelector)] (mkLits [1, 2, 3, 4, 5]) =
        [⟨[1], false, false⟩, ⟨[2], false, false⟩, ⟨[3], false, false⟩,
         ⟨[4], false, true⟩, ⟨[5], false, true⟩] := by decide
    rw [h]
    simp [sumKeptNumber, litNL_kept, litNL_numberv, Lit.number]
    norm_num
  · have h : dropL [(⟨none, 3⟩ : SetSelector)] (mkLits [1, 2, 3, 4, 5]) =
        [⟨[1], false, true⟩, ⟨[2], false, true⟩, ⟨[3], false, false⟩,
         ⟨[4], false, true⟩, ⟨[5], false, true⟩] := by decide
    rw [h]
    simp [sumKeptNumber, litNL_kept, litNL_numberv, Lit.number]
    norm_num

/-- Witness for the hypotheses of C3 at a concrete input. -/
theorem claim_C3_wit :
    totalAt (mkLits [5, 2]) 1 < totalAt (mkLits [5, 2]) 0 ∨
    (totalAt (mkLits [5, 2]) 1 = totalAt (mkLits [5, 2]) 0 ∧ 1 < 0) :=
  (claim_C3.2.2.2.1 Lit (mkLits [5, 2]) 1).2 1 (by decide) 0 (by decide) (by decide)

/-! ## Claim C1: ranges of `NdS`, `Nd%` and `NdSkhK` totals -/

/-- Summing `f` over a filtered list equals summing the guarded function. -/
theorem sum_filter_ite (p : α → Bool) (f : α → Value) :
    ∀ l : List α, ((l.filter p).map f).sum = (l.map (fun x => if p x then f x else 0)).sum := by
  intro l
  induction l with
  | nil => rfl
  | cons x xs ih =>
    by_cases hp : p x
    · simp [List.filter_cons, hp, ih]
    · simp [List.filter_cons, hp, ih]

/-- The kept-number sum is the sum of `total` over all members. -/
theorem sumKeptNumber_eq_total_sum [NumberLike α] (l : List α) :
    sumKeptNumber l = (l.map (fun x => NumberLike.total x)).sum := by
  rw [sumKeptNumber, sum_filter_ite]
  rfl

/-- `map total` as a map over element indices. -/
theorem map_total_eq_range [NumberLike α] :
    ∀ l : List α, l.map (fun x => NumberLike.total x) =
      (List.range l.length).map (fun i => totalAt l i) := by
  intro l
  induction l with
  | nil => rfl
  | cons x xs ih =>
    rw [List.map_cons, ih]
    show _ = (List.range (xs.length + 1)).map _
    rw [List.range_succ_eq_map, List.map_cons, List.map_map]
    exact congrArg₂ List.cons rfl (List.map_congr_left (fun i _ => rfl))

/-- `keepLoop` preserves the list length. -/
theorem keepLoop_length [NumberLike α] (sels : List SetSelector) :
    ∀ (is : List Nat) (xs : List α), (keepLoop sels is xs).length = xs.length := by
  intro is
  induction is with
  | nil => intro xs; rfl
  | cons i rest ih =>
    intro xs
    simp only [keepLoop]
    rw [ih]
    by_cases hc : (opSelect sels xs none).contains i = true
    · rw [if_pos hc]
    · rw [if_neg hc, length_updateAt]

/-- `keep` preserves the list length. -/
theorem keepL_length [NumberLike α] (sels : List SetSelector) (xs : List α) :
    (keepL sels xs).length = xs.length :=
  keepLoop_length sels (keptIdx xs) xs

/-- `totalAt` through a successful lookup. -/
theorem totalAt_get_some [NumberLike α] {xs : List α} {i : Nat} {x : α}
    (h : xs.get? i = some x) : totalAt xs i = NumberLike.total x := by
  rw [totalAt, h]

/-- `totalAt` out of range. -/
theorem totalAt_get_none [NumberLike α] {xs : List α} {i : Nat}
    (h : xs.get? i = none) : totalAt xs i = 0 := by
  rw [totalAt, h]

/-- On an all-kept list, `keep` leaves the selected totals and zeroes the
rest. -/
theorem totalAt_keepL [NumberLike α] (sels : List SetSelector) (xs : List α)
    (hall : ∀ x ∈ xs, NumberLike.kept x = true) (i : Nat) :
    totalAt (keepL sels xs) i =
      if i ∈ opSelect sels xs none then totalAt xs i else 0 := by
  by_cases hlen : i < xs.length
  · have hx : xs.get? i = some (xs.get ⟨i, hlen⟩) := List.get?_eq_get hlen
    have hxk : NumberLike.kept (xs.get ⟨i, hlen⟩) = true :=
      hall _ (List.get_mem xs i hlen)
    have hkidx : i ∈ keptIdx xs := by
      rw [keptIdx, List.mem_filter, List.mem_range]
      refine ⟨hlen, ?_⟩
      rw [keptAt, hx]
      exact hxk
    by_cases hsel : i ∈ opSelect sels xs none
    · rw [if_pos hsel]
      have h1 : (keepL sels xs).get? i = some (xs.get ⟨i, hlen⟩) := by
        rw [keepL_get, if_neg (fun hc => hc.2 hsel), hx]
      rw [totalAt_get_some h1, totalAt_get_some hx]
    · rw [if_neg hsel]
      have h1 : (keepL sels xs).get? i = some (NumberLike.dropIt (xs.get ⟨i, hlen⟩)) := by
        rw [keepL_get, if_pos ⟨hkidx, hsel⟩, hx]
        rfl
      rw [totalAt_get_some h1]
      simp [NumberLike.total, NumberLike.kept_dropIt]
  · have hx : xs.get? i = none := List.get?_eq_none.mpr (le_of_not_lt hlen)
    have h1 : (keepL sels xs).get? i = none := by
      rw [keepL_get]
      by_cases hc : i ∈ keptIdx xs ∧ i ∉ opSelect sels xs none
      · rw [if_pos hc, hx]
        rfl
      · rw [if_neg hc, hx]
    rw [totalAt_get_none h1, if_neg (fun hsel => hlen (opSelect_lt_length hsel))]

/-- A single selector's selection is duplicate-free. -/
theorem sel_nodup [NumberLike α] (sl : SetSelector) (xs : List α)
    (maxT : Option Nat) : (sl.sel xs maxT).Nodup := by
  have hbase : ∀ ch : List Nat, ch.Nodup →
      (match maxT with | some m => ch.take m | none => ch).Nodup := by
    intro ch h
    rcases maxT with - | m
    · exact h
    · exact List.Nodup.sublist (List.take_sublist m ch) h
  have hiso : ∀ lt, (isort lt (keptIdx xs)).Nodup :=
    fun lt => (isort_perm lt (keptIdx xs)).nodup_iff.mpr (keptIdx_nodup xs)
  rcases sl with ⟨cat, n⟩
  rcases cat with - | c
  · exact hbase _ ((keptIdx_nodup xs).filter _)
  · rcases c
    · exact hbase _ (List.Nodup.sublist (List.take_sublist _ _) (hiso _))
    · exact hbase _ (List.Nodup.sublist (List.take_sublist _ _) (hiso _))
    · exact hbase _ ((keptIdx_nodup xs).filter _)
    · exact hbase _ ((keptIdx_nodup xs).filter _)

/-- Index-set union preserves freedom from duplicates. -/
theorem unionIdx_nodup {a b : List Nat} (ha : a.Nodup) (hb : b.Nodup) :
    (unionIdx a b).Nodup := by
  rw [unionIdx]
  refine List.Nodup.append ha (hb.filter _) ?_
  intro i hia hib
  have hni := (List.mem_filter.mp hib).2
  rw [Bool.not_eq_true', show a.contains i = List.elem i a from rfl,
    List.elem_eq_mem, decide_eq_false_iff_not] at hni
  exact hni hia

/-- The running union of `SetOperator.select` stays duplicate-free. -/
theorem opSelectGo_nodup [NumberLike α] {xs : List α} {maxT : Option Nat} :
    ∀ (sels : List SetSelector) (out : List Nat), out.Nodup →
      (opSelectGo xs maxT sels out).Nodup := by
  intro sels
  induction sels with
  | nil => intro out h; exact h
  | cons sl rest ih =>
    intro out h
    rcases maxT with - | m
    · exact ih _ (unionIdx_nodup h (sel_nodup sl xs none))
    · show (if m - out.length = 0 then out
        else opSelectGo xs (some m) rest
          (unionIdx out (sl.sel xs (some (m - out.length))))).Nodup
      by_cases hb : m - out.length = 0
      · rw [if_pos hb]
        exact h
      · rw [if_neg hb]
        exact ih _ (unionIdx_nodup h (sel_nodup sl xs _))

/-- An operator's full selection is duplicate-free. -/
theorem opSelect_nodup [NumberLike α] (sels : List SetSelector) (xs : List α)
    (maxT : Option Nat) : (opSelect sels xs maxT).Nodup :=
  opSelectGo_nodup sels [] List.nodup_nil

/-- Summing a guarded function over `range N` is summing over the
duplicate-free index list itself. -/
theorem sum_ite_mem (sel : List Nat) (hnd : sel.Nodup) (N : Nat)
    (hsub : ∀ i ∈ sel, i < N) (f : Nat → Value) :
    ((List.range N).map (fun i => if i ∈ sel then f i else 0)).sum =
      (sel.map f).sum := by
  have hpt : ∀ i, (if i ∈ sel then f i else 0)
      = if (fun j => decide (j ∈ sel)) i then f i else 0 := by
    intro i
    by_cases h : i ∈ sel
    · rw [if_pos h, if_pos (decide_eq_true h)]
    · rw [if_neg h, if_neg (fun hc => h (of_decide_eq_true hc))]
  rw [List.map_congr_left (fun i _ => hpt i), ← sum_filter_ite]
  have hperm : ((List.range N).filter (fun j => decide (j ∈ sel))).Perm sel := by
    refine (List.perm_ext_iff_of_nodup ((List.nodup_range N).filter _) hnd).mpr ?_
    intro a
    rw [List.mem_filter, List.mem_range]
    constructor
    · rintro ⟨-, h2⟩
      exact of_decide_eq_true h2
    · intro h2
      exact ⟨hsub a h2, decide_eq_true h2⟩
  exact (hperm.map f).sum_eq

/-- The indices of an all-kept list are `range`. -/
theorem keptIdx_all_kept [NumberLike α] (xs : List α)
    (hall : ∀ x ∈ xs, NumberLike.kept x = true) :
    keptIdx xs = List.range xs.length := by
  rw [keptIdx, List.filter_eq_self]
  intro i hi
  rw [List.mem_range] at hi
  rw [keptAt, List.get?_eq_get hi]
  exact hall _ (List.get_mem xs i hi)

/-- A singleton operator's selection is the selector's selection. -/
theorem opSelect_single [NumberLike α] (sl : SetSelector) (xs : List α) :
    opSelect [sl] xs none = sl.sel xs none := by
  show unionIdx [] (sl.sel xs none) = sl.sel xs none
  show List.filter _ (sl.sel xs none) = sl.sel xs none
  exact List.filter_eq_self.mpr (fun a _ => rfl)

/-- On an all-kept list, the kept-number sum after `keep` is the sum of the
selected members' totals. -/
theorem sumKeptNumber_keepL [NumberLike α] (sels : List SetSelector)
    (xs : List α) (hall : ∀ x ∈ xs, NumberLike.kept x = true) :
    sumKeptNumber (keepL sels xs) =
      ((opSelect sels xs none).map (fun i => totalAt xs i)).sum := by
  rw [sumKeptNumber_eq_total_sum, map_total_eq_range, keepL_length]
  rw [List.map_congr_left (fun i _ => totalAt_keepL sels xs hall i)]
  exact sum_ite_mem _ (opSelect_nodup sels xs none) _
    (fun i hi => opSelect_lt_length hi) _

/-- Sum bounds for a list of values each within `[lo, hi]`. -/
theorem sum_bounds (lo hi : Value) :
    ∀ l : List Value, (∀ x ∈ l, lo ≤ x ∧ x ≤ hi) →
      (l.length : Value) * lo ≤ l.sum ∧ l.sum ≤ (l.length : Value) * hi := by
  intro l
  induction l with
  | nil =>
    intro h
    simp
  | cons x xs ih =>
    intro h
    have hx := h x (List.mem_cons_self x xs)
    have hxs := ih (fun y hy => h y (List.mem_cons_of_mem x hy))
    constructor
    · show ((xs.length + 1 : Nat) : Value) * lo ≤ x + xs.sum
      push_cast
      nlinarith [hxs.1, hx.1]
    · show x + xs.sum ≤ ((xs.length + 1 : Nat) : Value) * hi
      push_cast
      nlinarith [hxs.2, hx.2]

/-- A sum of multiples of ten from `{0, 10, …, 90}` is ten times a natural
number bounded by `9·length`. -/
theorem sum_pct :
    ∀ l : List Value, (∀ x ∈ l, ∃ m : Nat, m ≤ 9 ∧ x = 10 * (m : Value)) →
      ∃ M : Nat, M ≤ 9 * l.length ∧ l.sum = 10 * (M : Value) := by
  intro l
  induction l with
  | nil =>
    intro h
    exact ⟨0, by simp, by simp⟩
  | cons x xs ih =>
    intro h
    rcases h x (List.mem_cons_self x xs) with ⟨m, hm9, hxm⟩
    rcases ih (fun y hy => h y (List.mem_cons_of_mem x hy)) with ⟨M, hM, hsum⟩
    refine ⟨m + M, by simp only [List.length_cons]; omega, ?_⟩
    show x + xs.sum = 10 * ((m + M : Nat) : Value)
    rw [hxm, hsum]
    push_cast
    ring

/-- `Dice.total` of a kept dice node is the kept-number sum of its dice. -/
theorem diceTotal_keptTrue (dc : Dice) (h : dc.kept = true) :
    Dice.total dc = sumKeptNumber dc.values := by
  rw [Dice.total, if_pos h]
  rfl

/-- Bounds for the kept total after `khK` on an all-kept list of `K ≤ N`
members with totals in `[1, S]`. -/
theorem keepL_high_total_bounds [NumberLike α] (xs : List α) (k : Nat) (S : Value)
    (hall : ∀ x ∈ xs, NumberLike.kept x = true)
    (hbnd : ∀ i, i < xs.length → 1 ≤ totalAt xs i ∧ totalAt xs i ≤ S)
    (hkn : k ≤ xs.length) :
    (k : Value) ≤ sumKeptNumber (keepL [⟨some .h, k⟩] xs) ∧
      sumKeptNumber (keepL [⟨some .h, k⟩] xs) ≤ (k : Value) * S := by
  rw [sumKeptNumber_keepL _ _ hall]
  have hsel : opSelect [(⟨some SelCat.h, k⟩ : SetSelector)] xs none
      = SetSelector.sel ⟨some .h, k⟩ xs none := opSelect_single _ _
  have hslen : (opSelect [(⟨some SelCat.h, k⟩ : SetSelector)] xs none).length = k := by
    rw [hsel, (sel_high_spec xs k).1, keptIdx_all_kept xs hall, List.length_range]
    exact min_eq_left hkn
  have hbnd2 : ∀ x ∈ (opSelect [(⟨some SelCat.h, k⟩ : SetSelector)] xs none).map
      (fun i => totalAt xs i), 1 ≤ x ∧ x ≤ S := by
    intro x hx
    rcases List.mem_map.mp hx with ⟨i, hi, rfl⟩
    exact hbnd i (opSelect_lt_length hi)
  have hb := sum_bounds 1 S _ hbnd2
  rw [List.length_map, hslen, mul_one] at hb
  exact hb

/-- C1: for every RNG stream, `NdS` with `N ∈ [1,1000]`, `S ∈ [1,1000]`
succeeds with every individual draw in `[1, S]` and total in `[N, N·S]`;
`Nd%` succeeds with every draw a multiple of 10 in `{0, …, 90}` and total
`10·M` for some `M ≤ 9·N`; and `NdSkhK` with `K ≤ N` succeeds with total in
`[K, K·S]`. -/
theorem claim_C1 :
    (∀ (rng : Nat → Nat) (num : Nat) (S : Int),
      1 ≤ num → num ≤ 1000 → 1 ≤ S → S ≤ 1000 →
      ∃ dc s', Dice.new num (.n S) (mkState rng) = .ok (dc, s') ∧
        (∀ d ∈ dc.values, 1 ≤ d.number ∧ d.number ≤ (S : Value)) ∧
        (num : Value) ≤ dc.total ∧ dc.total ≤ (num : Value) * (S : Value)) ∧
    (∀ (rng : Nat → Nat) (num : Nat),
      1 ≤ num → num ≤ 1000 →
      ∃ dc s', Dice.new num .percent (mkState rng) = .ok (dc, s') ∧
        (∀ d ∈ dc.values, ∃ m : Nat, m ≤ 9 ∧ d.number = 10 * (m : Value)) ∧
        ∃ M : Nat, M ≤ 9 * num ∧ dc.total = 10 * (M : Value)) ∧
    (∀ (rng : Nat → Nat) (num k : Nat) (S : Int),
      1 ≤ num → num ≤ 1000 → 1 ≤ S → S ≤ 1000 → k ≤ num →
      ∃ dc s', evalOperatedDice num (.n S) [⟨.k, [⟨some .h, k⟩]⟩] (mkState rng)
          = .ok (dc, s') ∧
        (k : Value) ≤ dc.total ∧ dc.total ≤ (k : Value) * (S : Value)) := by
  refine ⟨?_, ?_, ?_⟩
  · intro rng num S hn1 hn1000 hS1 hS1000
    have hsz : (DieSize.n S).ok := hS1
    have hdc := diceNew_eq hsz num (mkState rng) (by show 0 + num ≤ 1000; omega)
    refine ⟨freshDice num (.n S) (mkState rng), bumpState (mkState rng) num num, hdc, ?_⟩
    have hdie : ∀ d ∈ (freshDice num (.n S) (mkState rng)).values,
        d.kept = true ∧ 1 ≤ d.number ∧ d.number ≤ (S : Value) := by
      intro d hd
      rcases List.mem_map.mp hd with ⟨t, -, rfl⟩
      exact ⟨mkRolledDie_kept _ _, (mkRolledDie_number_n hS1 _).1,
        (mkRolledDie_number_n hS1 _).2⟩
    refine ⟨fun d hd => ⟨(hdie d hd).2.1, (hdie d hd).2.2⟩, ?_⟩
    have htot : Dice.total (freshDice num (.n S) (mkState rng))
        = ((freshDice num (.n S) (mkState rng)).values.map Die.number).sum := by
      rw [diceTotal_keptTrue _ rfl, sumKeptNumber_eq_total_sum]
      refine congrArg List.sum (List.map_congr_left ?_)
      intro d hd
      rw [NumberLike.total, if_pos (show NumberLike.kept d = true from (hdie d hd).1)]
      rfl
    have hbnd : ∀ x ∈ (freshDice num (.n S) (mkState rng)).values.map Die.number,
        1 ≤ x ∧ x ≤ (S : Value) := by
      intro x hx
      rcases List.mem_map.mp hx with ⟨d, hd, rfl⟩
      exact ⟨(hdie d hd).2.1, (hdie d hd).2.2⟩
    have hb := sum_bounds 1 (S : Value) _ hbnd
    have hlml : ((freshDice num (.n S) (mkState rng)).values.map Die.number).length
        = num := by
      rw [List.length_map]
      simp [freshDice]
    rw [hlml, mul_one] at hb
    rw [htot]
    exact hb
  · intro rng num hn1 hn1000
    have hsz : DieSize.percent.ok := trivial
    have hdc := diceNew_eq hsz num (mkState rng) (by show 0 + num ≤ 1000; omega)
    refine ⟨freshDice num .percent (mkState rng), bumpState (mkState rng) num num, hdc, ?_, ?_⟩
    · intro d hd
      rcases List.mem_map.mp hd with ⟨t, -, rfl⟩
      exact mkRolledDie_number_pct _
    · have hkeptp : ∀ d ∈ (freshDice num .percent (mkState rng)).values,
          d.kept = true := by
        intro d hd
        rcases List.mem_map.mp hd with ⟨t, -, rfl⟩
        exact mkRolledDie_kept _ _
      have htot : Dice.total (freshDice num .percent (mkState rng))
          = ((freshDice num .percent (mkState rng)).values.map Die.number).sum := by
        rw [diceTotal_keptTrue _ rfl, sumKeptNumber_eq_total_sum]
        refine congrArg List.sum (List.map_congr_left ?_)
        intro d hd
        rw [NumberLike.total, if_pos (show NumberLike.kept d = true from hkeptp d hd)]
        rfl
      have hmem : ∀ x ∈ (freshDice num .percent (mkState rng)).values.map Die.number,
          ∃ m : Nat, m ≤ 9 ∧ x = 10 * (m : Value) := by
        intro x hx
        rcases List.mem_map.mp hx with ⟨d, hd, rfl⟩
        rcases List.mem_map.mp hd with ⟨t, -, rfl⟩
        exact mkRolledDie_number_pct _
      rcases sum_pct _ hmem with ⟨M, hM, hsum⟩
      have hlml : ((freshDice num .percent (mkState rng)).values.map Die.number).length
          = num := by
        rw [List.length_map]
        simp [freshDice]
      rw [hlml] at hM
      exact ⟨M, hM, by rw [htot, hsum]⟩
  · intro rng num k S hn1 hn1000 hS1 hS1000 hkn
    have hsz : (DieSize.n S).ok := hS1
    have hdc := diceNew_eq hsz num (mkState rng) (by show 0 + num ≤ 1000; omega)
    have heval : evalOperatedDice num (.n S) [⟨.k, [⟨some .h, k⟩]⟩] (mkState rng)
        = .ok ({ freshDice num (.n S) (mkState rng) with
            values := keepL [⟨some .h, k⟩] (freshDice num (.n S) (mkState rng)).values },
          bumpState (mkState rng) num num) := by
      rw [evalOperatedDice]
      simp only [hdc]
      rw [applyOps]
      simp only [SetOp.operateDice]
      rw [applyOps]
    refine ⟨_, _, heval, ?_⟩
    have hkept : ∀ d ∈ (freshDice num (.n S) (mkState rng)).values,
        NumberLike.kept d = true := by
      intro d hd
      rcases List.mem_map.mp hd with ⟨t, -, rfl⟩
      exact mkRolledDie_kept _ _
    have hlen : (freshDice num (.n S) (mkState rng)).values.length = num := by
      simp [freshDice]
    have hbnd : ∀ i, i < (freshDice num (.n S) (mkState rng)).values.length →
        1 ≤ totalAt (freshDice num (.n S) (mkState rng)).values i ∧
          totalAt (freshDice num (.n S) (mkState rng)).values i ≤ (S : Value) := by
      intro i hilt
      have hinum : i < num := by rwa [hlen] at hilt
      have hget : (freshDice num (.n S) (mkState rng)).values.get? i
          = some (mkRolledDie (.n S) ((mkState rng).rng ((mkState rng).idx + i))) := by
        show ((List.range num).map _).get? i = _
        rw [List.get?_map, List.get?_range hinum]
        rfl
      have htotEq : totalAt (freshDice num (.n S) (mkState rng)).values i
          = Die.number (mkRolledDie (.n S) ((mkState rng).rng ((mkState rng).idx + i))) := by
        rw [totalAt_get_some hget, NumberLike.total,
          if_pos (show NumberLike.kept
              (mkRolledDie (.n S) ((mkState rng).rng ((mkState rng).idx + i))) = true
            from mkRolledDie_kept (.n S) ((mkState rng).rng ((mkState rng).idx + i)))]
        rfl
      rw [htotEq]
      exact mkRolledDie_number_n hS1 _
    have hb := keepL_high_total_bounds (freshDice num (.n S) (mkState rng)).values
      k (S : Value) hkept hbnd (by omega)
    have htot : Dice.total { freshDice num (.n S) (mkState rng) with
        values := keepL [⟨some .h, k⟩] (freshDice num (.n S) (mkState rng)).values }
        = sumKeptNumber (keepL [(⟨some SelCat.h, k⟩ : SetSelector)]
            (freshDice num (.n S) (mkState rng)).values) :=
      diceTotal_keptTrue _ rfl
    rw [htot]
    exact hb

/-- Witness for C1 at the concrete input `2d6kh1` with the identity
stream. -/
theorem claim_C1_wit :
    ∃ dc s', evalOperatedDice 2 (.n 6) [⟨.k, [⟨some .h, 1⟩]⟩] (mkState (fun x => x))
        = .ok (dc, s') ∧
      ((1 : Nat) : Value) ≤ dc.total ∧ dc.total ≤ ((1 : Nat) : Value) * ((6 : Int) : Value) :=
  claim_C1.2.2 (fun x => x) 2 1 6 (by decide) (by decide) (by decide) (by decide)
    (by decide)

/-! ## Claim C5: crit detection -/

/-- `crit` through a leftmost chain ending at a dice node. -/
theorem critOf_edice {e : EExpression} {dc : Dice} (h : e.roll.leftmost = .edice dc) :
    critOf e = if dc.keptset.length = 1 ∧ dc.size = .n 20 then
      if dc.total = 1 then .fail
      else if dc.total = 20 then .crit
      else .none
    else .none := by
  rw [critOf, h]

/-- `crit` through a leftmost chain ending anywhere else. -/
theorem critOf_not_edice {e : EExpression} (h : ∀ dc, e.roll.leftmost ≠ .edice dc) :
    critOf e = .none := by
  rw [critOf]
  cases hL : e.roll.leftmost with
  | elit l => rfl
  | unop op v k => rfl
  | binop op l r k => rfl
  | paren v k => rfl
  | eset vs k => rfl
  | edice dc => exact absurd hL (h dc)

/-- `crit` returns `CRIT` exactly for a kept-one d20 totalling 20. -/
theorem critOf_crit_iff (e : EExpression) :
    critOf e = .crit ↔
      ∃ dc, e.roll.leftmost = .edice dc ∧ dc.keptset.length = 1 ∧
        dc.size = .n 20 ∧ dc.total = 20 := by
  constructor
  · intro hc
    cases hL : e.roll.leftmost with
    | edice dc =>
      rw [critOf_edice hL] at hc
      by_cases h1 : dc.keptset.length = 1 ∧ dc.size = .n 20
      · rw [if_pos h1] at hc
        by_cases h2 : dc.total = 1
        · rw [if_pos h2] at hc
          exact absurd hc (by decide)
        · rw [if_neg h2] at hc
          by_cases h3 : dc.total = 20
          · exact ⟨dc, rfl, h1.1, h1.2, h3⟩
          · rw [if_neg h3] at hc
            exact absurd hc (by decide)
      · rw [if_neg h1] at hc
        exact absurd hc (by decide)
    | elit l => exact absurd (critOf_not_edice (by rw [hL]; intro dc hcon; cases hcon) ▸ hc) (by decide)
    | unop op v k => exact absurd (critOf_not_edice (by rw [hL]; intro dc hcon; cases hcon) ▸ hc) (by decide)
    | binop op l r k => exact absurd (critOf_not_edice (by rw [hL]; intro dc hcon; cases hcon) ▸ hc) (by decide)
    | paren v k => exact absurd (critOf_not_edice (by rw [hL]; intro dc hcon; cases hcon) ▸ hc) (by decide)
    | eset vs k => exact absurd (critOf_not_edice (by rw [hL]; intro dc hcon; cases hcon) ▸ hc) (by decide)
  · rintro ⟨dc, hL, hk, hs, ht⟩
    rw [critOf_edice hL, if_pos ⟨hk, hs⟩,
      if_neg (by rw [ht]; norm_num), if_pos ht]

/-- `crit` returns `FAIL` exactly for a kept-one d20 totalling 1. -/
theorem critOf_fail_iff (e : EExpression) :
    critOf e = .fail ↔
      ∃ dc, e.roll.leftmost = .edice dc ∧ dc.keptset.length = 1 ∧
        dc.size = .n 20 ∧ dc.total = 1 := by
  constructor
  · intro hc
    cases hL : e.roll.leftmost with
    | edice dc =>
      rw [critOf_edice hL] at hc
      by_cases h1 : dc.keptset.length = 1 ∧ dc.size = .n 20
      · rw [if_pos h1] at hc
        by_cases h2 : dc.total = 1
        · exact ⟨dc, rfl, h1.1, h1.2, h2⟩
        · rw [if_neg h2] at hc
          by_cases h3 : dc.total = 20
          · rw [if_pos h3] at hc
            exact absurd hc (by decide)
          · rw [if_neg h3] at hc
            exact absurd hc (by decide)
      · rw [if_neg h1] at hc
        exact absurd hc (by decide)
    | elit l => exact absurd (critOf_not_edice (by rw [hL]; intro dc hcon; cases hcon) ▸ hc) (by decide)
    | unop op v k => exact absurd (critOf_not_edice (by rw [hL]; intro dc hcon; cases hcon) ▸ hc) (by decide)
    | binop op l r k => exact absurd (critOf_not_edice (by rw [hL]; intro dc hcon; cases hcon) ▸ hc) (by decide)
    | paren v k => exact absurd (critOf_not_edice (by rw [hL]; intro dc hcon; cases hcon) ▸ hc) (by decide)
    | eset vs k => exact absurd (critOf_not_edice (by rw [hL]; intro dc hcon; cases hcon) ▸ hc) (by decide)
  · rintro ⟨dc, hL, hk, hs, ht⟩
    rw [critOf_edice hL, if_pos ⟨hk, hs⟩, if_pos ht]

/-- Every `CritType` is `none`, `crit` or `fail`. -/
theorem critType_cases (c : CritType) : c = .none ∨ c = .crit ∨ c = .fail := by
  cases c
  · exact Or.inl rfl
  · exact Or.inr (Or.inl rfl)
  · exact Or.inr (Or.inr rfl)

/-- C5: `crit` walks the leftmost-children chain and returns `CRIT` exactly
when it ends at a `Dice` node of size 20 with exactly one kept die and total
20 (with one kept die and the node kept, the total is that die's value);
`FAIL` exactly when that total is 1; and `NONE` in every other case. -/
theorem claim_C5 :
    (∀ e : EExpression, critOf e = .crit ↔
      ∃ dc, e.roll.leftmost = .edice dc ∧ dc.keptset.length = 1 ∧
        dc.size = .n 20 ∧ dc.total = 20) ∧
    (∀ e : EExpression, critOf e = .fail ↔
      ∃ dc, e.roll.leftmost = .edice dc ∧ dc.keptset.length = 1 ∧
        dc.size = .n 20 ∧ dc.total = 1) ∧
    (∀ e : EExpression, critOf e = .none ↔
      ¬∃ dc, e.roll.leftmost = .edice dc ∧ dc.keptset.length = 1 ∧
        dc.size = .n 20 ∧ (dc.total = 1 ∨ dc.total = 20)) ∧
    (∀ (dc : Dice) (d : Die), dc.kept = true → dc.keptset = [d] →
      Dice.total dc = d.number) := by
  refine ⟨critOf_crit_iff, critOf_fail_iff, ?_, ?_⟩
  · intro e
    constructor
    · intro hn hcon
      rcases hcon with ⟨dc, hL, hk, hs, ht | ht⟩
      · rw [(critOf_fail_iff e).mpr ⟨dc, hL, hk, hs, ht⟩] at hn
        exact absurd hn (by decide)
      · rw [(critOf_crit_iff e).mpr ⟨dc, hL, hk, hs, ht⟩] at hn
        exact absurd hn (by decide)
    · intro hne
      rcases critType_cases (critOf e) with h | h | h
      · exact h
      · rcases (critOf_crit_iff e).mp h with ⟨dc, hL, hk, hs, ht⟩
        exact absurd ⟨dc, hL, hk, hs, Or.inr ht⟩ hne
      · rcases (critOf_fail_iff e).mp h with ⟨dc, hL, hk, hs, ht⟩
        exact absurd ⟨dc, hL, hk, hs, Or.inl ht⟩ hne
  · intro dc d hkept hset
    rw [Dice.total, if_pos hkept, Dice.number, hset]
    simp

/-- Witness for C5's hypotheses: a kept single-die d20 node's total is that
die's value. -/
theorem claim_C5_wit :
    Dice.total { num := 1, size := .n 20, values := [mkRolledDie (.n 20) 19] }
      = (mkRolledDie (.n 20) 19).number :=
  claim_C5.2.2.2 { num := 1, size := .n 20, values := [mkRolledDie (.n 20) 19] }
    (mkRolledDie (.n 20) 19) rfl (by decide)

/-! ## Claim C7: operator simplification on construction -/

/-- Adjacent operators may share an op symbol only if that op is
immediate. -/
def SetOp.adjOK (a b : SetOp) : Prop := a.op = b.op → a.op.isImmediate = true

/-- One simplification step preserves the adjacency invariant. -/
theorem simpStep_chain {acc : List SetOp} {o : SetOp}
    (h : acc.Chain' SetOp.adjOK) : (simpStep acc o).Chain' SetOp.adjOK := by
  rw [simpStep]
  by_cases himm : o.op.isImmediate = true
  · rw [if_pos himm]
    refine List.chain'_append.mpr ⟨h, List.chain'_singleton o, ?_⟩
    intro x hx y hy
    have hyo : y = o := by simpa using hy.symm
    subst hyo
    intro hxy
    rw [hxy]
    exact himm
  · rw [if_neg himm]
    cases hlast : acc.getLast? with
    | none =>
      refine List.chain'_append.mpr ⟨h, List.chain'_singleton o, ?_⟩
      intro x hx y hy
      rw [hlast] at hx
      simp at hx
    | some lastOp =>
      have hne : acc ≠ [] := by
        intro he
        rw [he] at hlast
        simp at hlast
      have hget : acc.getLast hne = lastOp := by
        have := List.getLast?_eq_getLast acc hne
        rw [hlast] at this
        exact (Option.some_injective _ this.symm)
      have hacc : acc.dropLast ++ [lastOp] = acc := by
        rw [← hget]
        exact List.dropLast_append_getLast hne
      show (if o.op = lastOp.op
          then acc.dropLast ++ [{ lastOp with sels := lastOp.sels ++ o.sels }]
          else acc ++ [o]).Chain' SetOp.adjOK
      by_cases heq : o.op = lastOp.op
      · rw [if_pos heq]
        have h2 := List.chain'_append.mp (hacc ▸ h)
        refine List.chain'_append.mpr
          ⟨h2.1, List.chain'_singleton _, ?_⟩
        intro x hx y hy
        have hyo : y = { lastOp with sels := lastOp.sels ++ o.sels } := by
          simpa using hy.symm
        subst hyo
        intro hxy
        exact h2.2.2 x hx lastOp (by simp) hxy
      · rw [if_neg heq]
        refine List.chain'_append.mpr ⟨h, List.chain'_singleton o, ?_⟩
        intro x hx y hy
        have hyo : y = o := by simpa using hy.symm
        subst hyo
        rw [hlast] at hx
        have hxl : x = lastOp := by simpa using hx.symm
        subst hxl
        intro hxy
        exact absurd hxy.symm heq

/-- The fold of simplification steps preserves the adjacency invariant. -/
theorem simpOps_chain_aux :
    ∀ (ops acc : List SetOp), acc.Chain' SetOp.adjOK →
      (ops.foldl simpStep acc).Chain' SetOp.adjOK := by
  intro ops
  induction ops with
  | nil => intro acc h; exact h
  | cons o rest ih =>
    intro acc h
    exact ih _ (simpStep_chain h)

/-- C7: `OperatedSet` and `OperatedDice` simplify their operator lists on
construction; afterwards no two adjacent operators share an op symbol unless
that op is immediate (`mi`/`ma`); a same-op non-immediate operator merges
into its predecessor by concatenating selector lists in parse order, so
`k1k2k3` yields the single operator `k(1,2,3)`. -/
theorem claim_C7 :
    (∀ (v : ANode) (ops : List SetOp),
      mkOperatedSet v ops = .opSet v (simpOps ops) ∧
      mkOperatedDice v ops = .opDice v (simpOps ops)) ∧
    (∀ ops : List SetOp, (simpOps ops).Chain' SetOp.adjOK) ∧
    (∀ s1 s2 s3 : SetSelector,
      simpOps [⟨.k, [s1]⟩, ⟨.k, [s2]⟩, ⟨.k, [s3]⟩] = [⟨.k, [s1, s2, s3]⟩] ∧
      simpOps [⟨.k, [s1, s2, s3]⟩] = [⟨.k, [s1, s2, s3]⟩]) ∧
    (∀ (acc : List SetOp) (o lastOp : SetOp), acc.getLast? = some lastOp →
      o.op.isImmediate = false → o.op = lastOp.op →
      simpStep acc o
        = acc.dropLast ++ [{ lastOp with sels := lastOp.sels ++ o.sels }]) := by
  refine ⟨fun v ops => ⟨rfl, rfl⟩, fun ops => simpOps_chain_aux ops [] List.chain'_nil,
    fun s1 s2 s3 => ⟨rfl, rfl⟩, ?_⟩
  intro acc o lastOp hlast himm heq
  rw [simpStep, if_neg (by rw [himm]; exact Bool.false_ne_true), hlast]
  show (if o.op = lastOp.op
      then acc.dropLast ++ [{ lastOp with sels := lastOp.sels ++ o.sels }]
      else acc ++ [o]) = _
  rw [if_pos heq]

/-- Witness for C7's merging rule at a concrete input. -/
theorem claim_C7_wit :
    simpStep [(⟨.k, [⟨none, 1⟩]⟩ : SetOp)] ⟨.k, [⟨none, 2⟩]⟩
      = [(⟨.k, [⟨none, 1⟩]⟩ : SetOp)].dropLast
        ++ [{ (⟨.k, [⟨none, 1⟩]⟩ : SetOp) with sels := [⟨none, 1⟩] ++ [⟨none, 2⟩] }] :=
  claim_C7.2.2.2 [⟨.k, [⟨none, 1⟩]⟩] ⟨.k, [⟨none, 2⟩]⟩ ⟨.k, [⟨none, 1⟩]⟩
    (by decide) (by decide) (by decide)

/-! ## Claim C6: the advantage rewrite -/

/-- A node passing the `1d20` test is the dice `1d20`. -/
theorem is1d20_eq : ∀ {v : ANode}, v.is1d20 = true → v = .dice 1 (.n 20) := by
  intro v h
  cases v with
  | dice n sz =>
    have h2 : n = 1 ∧ sz = DieSize.n 20 := by simpa [ANode.is1d20] using h
    rw [h2.1, h2.2]
  | expr r cm => simp [ANode.is1d20] at h
  | annoNum v an => simp [ANode.is1d20] at h
  | lit v => simp [ANode.is1d20] at h
  | paren v => simp [ANode.is1d20] at h
  | unop op v => simp [ANode.is1d20] at h
  | binop l op r => simp [ANode.is1d20] at h
  | opSet v ops => simp [ANode.is1d20] at h
  | numSet vs => simp [ANode.is1d20] at h
  | opDice v ops => simp [ANode.is1d20] at h

/-- The descending walk of `ast_adv_copy` is the identity when the leftmost
leaf is not the dice `1d20` (stated with a fuel bound for the nested
induction). -/
theorem advWalk_id (a : Int) :
    ∀ (m : Nat) (c p : ANode), sizeOf c < m → leftLeafA c ≠ .dice 1 (.n 20) →
      withLeftA p c = p → advWalk a p c = p := by
  intro m
  induction m with
  | zero =>
    intro c p hsz _ _
    exact absurd hsz (Nat.not_lt_zero _)
  | succ m ih =>
    intro c p hsz hleaf hwl
    cases c with
    | expr r cm =>
      have hr : sizeOf r < m := by simp at hsz; omega
      show withLeftA p (advWalk a (.expr r cm) r) = p
      rw [ih r (.expr r cm) hr hleaf rfl]
      exact hwl
    | annoNum v an =>
      have hv : sizeOf v < m := by simp at hsz; omega
      show withLeftA p (advWalk a (.annoNum v an) v) = p
      rw [ih v (.annoNum v an) hv hleaf rfl]
      exact hwl
    | paren v =>
      have hv : sizeOf v < m := by simp at hsz; omega
      show withLeftA p (advWalk a (.paren v) v) = p
      rw [ih v (.paren v) hv hleaf rfl]
      exact hwl
    | unop op v =>
      have hv : sizeOf v < m := by simp at hsz; omega
      show withLeftA p (advWalk a (.unop op v) v) = p
      rw [ih v (.unop op v) hv hleaf rfl]
      exact hwl
    | binop l op r =>
      have hl : sizeOf l < m := by simp at hsz; omega
      show withLeftA p (advWalk a (.binop l op r) l) = p
      rw [ih l (.binop l op r) hl hleaf rfl]
      exact hwl
    | opSet v ops =>
      have hv : sizeOf v < m := by simp at hsz; omega
      show withLeftA p (advWalk a (.opSet v ops) v) = p
      rw [ih v (.opSet v ops) hv hleaf rfl]
      exact hwl
    | numSet vs =>
      cases vs with
      | nil => rfl
      | cons v vs =>
        have hv : sizeOf v < m := by simp at hsz; omega
        show withLeftA p (advWalk a (.numSet (v :: vs)) v) = p
        rw [ih v (.numSet (v :: vs)) hv hleaf rfl]
        exact hwl
    | opDice v ops =>
      have hv : sizeOf v < m := by simp at hsz; omega
      show (if v.is1d20 = true
          then withLeftA p (.opDice (.dice 2 (.n 20)) (advSel a :: ops))
          else withLeftA p (advWalk a (.opDice v ops) v)) = p
      by_cases hb : v.is1d20 = true
      · rw [is1d20_eq hb] at hleaf
        exact absurd rfl hleaf
      · rw [if_neg hb, ih v (.opDice v ops) hv hleaf rfl]
        exact hwl
    | dice n sz =>
      show (if (ANode.dice n sz).is1d20 = true
          then withLeftA p (.opDice (.dice 2 (.n 20)) [advSel a])
          else p) = p
      by_cases hb : (ANode.dice n sz).is1d20 = true
      · rw [is1d20_eq hb] at hleaf
        exact absurd rfl hleaf
      · rw [if_neg hb]
    | lit v => rfl

/-- `ast_adv_copy` is the identity when the leftmost leaf is not `1d20`. -/
theorem astAdvCopy_id (t : ANode) (a : Int)
    (h : leftLeafA t ≠ .dice 1 (.n 20)) : astAdvCopy t a = t := by
  by_cases ha : a = 0
  · rw [astAdvCopy.eq_def, if_pos ha]
  · rw [astAdvCopy.eq_def, if_neg ha]
    cases t with
    | expr r cm => exact advWalk_id a (sizeOf r + 1) r (.expr r cm) (by omega) h rfl
    | annoNum v an => exact advWalk_id a (sizeOf v + 1) v (.annoNum v an) (by omega) h rfl
    | paren v => exact advWalk_id a (sizeOf v + 1) v (.paren v) (by omega) h rfl
    | unop op v => exact advWalk_id a (sizeOf v + 1) v (.unop op v) (by omega) h rfl
    | binop l op r => exact advWalk_id a (sizeOf l + 1) l (.binop l op r) (by omega) h rfl
    | opSet v ops => exact advWalk_id a (sizeOf v + 1) v (.opSet v ops) (by omega) h rfl
    | numSet vs =>
      cases vs with
      | nil => rfl
      | cons v vs =>
        exact advWalk_id a (sizeOf v + 1) v (.numSet (v :: vs)) (by omega) h rfl
    | opDice v ops =>
      show (if v.is1d20 = true then ANode.opDice (.dice 2 (.n 20)) (advSel a :: ops)
          else advWalk a (.opDice v ops) v) = ANode.opDice v ops
      by_cases hb : v.is1d20 = true
      · rw [is1d20_eq hb] at h
        exact absurd rfl h
      · rw [if_neg hb]
        exact advWalk_id a (sizeOf v + 1) v (.opDice v ops) (by omega) h rfl
    | dice n sz => rfl
    | lit v => rfl

/-- C6: `ast_adv_copy` is a pure rewrite: it is the identity whenever the
leftmost leaf is not the dice `1d20`; with a nonzero advantage type it turns
a `1d20` leftmost leaf into `2d20` and prepends the `k(h1)` (`ADV`) or
`k(l1)` (`DIS`) operator to its parent's operator list, wrapping in an
`OperatedDice` when the parent has no operator list; concretely
`1d20 + 5` maps to `2d20kh1 + 5` under `ADV` and `2d20kl1 + 5` under `DIS`,
and `1d6` is returned unchanged. -/
theorem claim_C6 :
    (∀ (t : ANode) (a : Int), leftLeafA t ≠ .dice 1 (.n 20) → astAdvCopy t a = t) ∧
    (advSel 1 = ⟨.k, [⟨some .h, 1⟩]⟩ ∧ advSel (-1) = ⟨.k, [⟨some .l, 1⟩]⟩) ∧
    (∀ (ops : List SetOp) (a : Int), a ≠ 0 →
      astAdvCopy (.opDice (.dice 1 (.n 20)) ops) a
        = .opDice (.dice 2 (.n 20)) (advSel a :: ops)) ∧
    (∀ (r : ANode) (op : String) (c : Option String) (a : Int), a ≠ 0 →
      astAdvCopy (.expr (.binop (.dice 1 (.n 20)) op r) c) a
        = .expr (.binop (.opDice (.dice 2 (.n 20)) [advSel a]) op r) c) ∧
    ANode.str (astAdvCopy (.expr (.binop (.dice 1 (.n 20)) "+" (.lit 5)) none) 1)
      = "2d20kh1 + 5" ∧
    ANode.str (astAdvCopy (.expr (.binop (.dice 1 (.n 20)) "+" (.lit 5)) none) (-1))
      = "2d20kl1 + 5" ∧
    ANode.str (.expr (.binop (.dice 1 (.n 20)) "+" (.lit 5)) none) = "1d20 + 5" ∧
    astAdvCopy (.expr (.dice 1 (.n 6)) none) 1 = .expr (.dice 1 (.n 6)) none ∧
    ANode.str (.expr (.dice 1 (.n 6)) none) = "1d6" := by
  refine ⟨astAdvCopy_id, ⟨rfl, rfl⟩, ?_, ?_, ?_, ?_, ?_, rfl, ?_⟩
  · intro ops a ha
    rw [astAdvCopy.eq_def, if_neg ha]
    rfl
  · intro r op c a ha
    rw [astAdvCopy.eq_def, if_neg ha]
    rfl
  · have h1 : astAdvCopy (.expr (.binop (.dice 1 (.n 20)) "+" (.lit 5)) none) 1
        = .expr (.binop (.opDice (.dice 2 (.n 20)) [advSel 1]) "+" (.lit 5)) none := rfl
    rw [h1]
    simp only [ANode.str, SetOp.str, OpKind.str, SetSelector.str, SelCat.str, DieSize.str, advSel]
    rfl
  · have h1 : astAdvCopy (.expr (.binop (.dice 1 (.n 20)) "+" (.lit 5)) none) (-1)
        = .expr (.binop (.opDice (.dice 2 (.n 20)) [advSel (-1)]) "+" (.lit 5)) none := rfl
    rw [h1]
    simp only [ANode.str, SetOp.str, OpKind.str, SetSelector.str, SelCat.str, DieSize.str, advSel]
    rfl
  · simp only [ANode.str, DieSize.str]
    rfl
  · simp only [ANode.str, DieSize.str]
    rfl

/-- Witness for C6's hypotheses at concrete inputs. -/
theorem claim_C6_wit :
    astAdvCopy (.expr (.dice 2 (.n 20)) none) 1 = .expr (.dice 2 (.n 20)) none ∧
    astAdvCopy (.opDice (.dice 1 (.n 20)) []) 1
      = .opDice (.dice 2 (.n 20)) (advSel 1 :: []) :=
  ⟨claim_C6.1 (.expr (.dice 2 (.n 20)) none) 1 (by intro hcon; simp [leftLeafA] at hcon),
    claim_C6.2.2.1 [] 1 (by decide)⟩

/-! ## Claim C9: comment-ambiguity rescue in parsing -/

/-- C9: `_parse_with_comments` returns the parse when `commented_expr`
succeeds; on an unexpected-input error whose successful fragment does not end
with the comment-ambiguity suffix `*` it re-raises; when the fragment ends
with `*`, it strips the suffix, re-parses, and forces the comment to the
suffix plus the remainder (errors of the re-parse propagate). Concretely,
with comments allowed, `1d20 keep something` parses with comment
`keep something` and `1d20 **bold**` parses with comment `**bold**`, while
both are syntax errors with comments disallowed. -/
theorem claim_C9 :
    (∀ (p : String → Except LarkUI ANode) (expr : String) (r : ANode),
      p expr = .ok r → parseWithComments p expr = .ok r) ∧
    (∀ (p : String → Except LarkUI ANode) (expr : String) (ui : LarkUI),
      p expr = .error ui →
      endsWithStar (expr.toList.take ui.pos) = false →
      parseWithComments p expr = .error ui) ∧
    (∀ (p : String → Except LarkUI ANode) (expr : String) (ui : LarkUI) (r : ANode),
      p expr = .error ui →
      endsWithStar (expr.toList.take ui.pos) = true →
      p (String.mk (expr.toList.take ui.pos).dropLast) = .ok r →
      parseWithComments p expr
        = .ok (setCommentA r
            (String.mk (expr.toList.drop (expr.toList.take ui.pos).dropLast.length)))) ∧
    (∀ (p : String → Except LarkUI ANode) (expr : String) (ui e : LarkUI),
      p expr = .error ui →
      endsWithStar (expr.toList.take ui.pos) = true →
      p (String.mk (expr.toList.take ui.pos).dropLast) = .error e →
      parseWithComments p expr = .error e) ∧
    rollerParse true "1d20 keep something"
      = .ok (.expr (.opDice (.dice 1 (.n 20)) []) (some "keep something")) ∧
    rollerParse true "1d20 **bold**"
      = .ok (.expr (.opDice (.dice 1 (.n 20)) []) (some "**bold**")) ∧
    rollerParse false "1d20 keep something" = .error .syntaxErr ∧
    rollerParse false "1d20 **bold**" = .error .syntaxErr ∧
    ANode.commentOf (.expr (.opDice (.dice 1 (.n 20)) []) (some "keep something"))
      = some "keep something" ∧
    ANode.commentOf (.expr (.opDice (.dice 1 (.n 20)) []) (some "**bold**"))
      = some "**bold**" := by
  refine ⟨?_, ?_, ?_, ?_, ?_, ?_, ?_, ?_, rfl, rfl⟩
  · intro p expr r h
    rw [parseWithComments, h]
  · intro p expr ui h hend
    simp only [parseWithComments, h, hend]
    rfl
  · intro p expr ui r h hend h2
    simp only [parseWithComments, h, hend, h2]
    rfl
  · intro p expr ui e h hend h2
    simp only [parseWithComments, h, hend, h2]
    rfl
  · rfl
  · rfl
  · rfl
  · rfl

/-- Witness for C9's rescue branch at a concrete parser and input. -/
theorem claim_C9_wit :
    parseWithComments
        (fun s => if s = "" then .ok (.lit 0) else .error ⟨1⟩) "*"
      = .ok (setCommentA (.lit 0)
          (String.mk (("*" : String).toList.drop
            ((("*" : String).toList.take (1 : Nat)).dropLast.length)))) :=
  claim_C9.2.2.1 (fun s => if s = "" then .ok (.lit 0) else .error ⟨1⟩) "*"
    ⟨1⟩ (.lit 0) rfl rfl rfl

/-! ## Claim C10 -/

/-- C10: for every size value — any integer, including sizes below 1, or `%`
— evaluating `0dS` succeeds with total 0 from any state: `Dice.new 0 S`
builds the empty die list without ever reaching the size check inside an
individual die's draw. -/
theorem claim_C10 (size : DieSize) (s : RState) :
    Dice.new 0 size s = .ok ({ num := 0, size := size, values := [] }, s) ∧
    Dice.total { num := 0, size := size, values := [] } = 0 :=
  ⟨rfl, rfl⟩

/-! ## Claim C8 -/

/-- C8: a `BinOp` evaluation raises the library's `ValueError` exactly for
`/`, `//` and `%` with a zero right total (and no other op/operand
combination raises); drawing a die whose integer size is below 1 raises
`ValueError`; hence `10/0`, `10//0`, `10%0` and `6d0` raise. -/
theorem claim_C8 :
    (∀ (op : BinOpKind) (l r : Value) (e : RollErr),
      binNumber op l r = .error e ↔
        e = .valueErr ∧ (op = .div ∨ op = .floordiv ∨ op = .mod) ∧ r = 0) ∧
    (∀ (k : Int) (s : RState), k < 1 → Die.new (.n k) s = .error .valueErr) ∧
    binNumber .div 10 0 = .error .valueErr ∧
    binNumber .floordiv 10 0 = .error .valueErr ∧
    binNumber .mod 10 0 = .error .valueErr ∧
    (∀ s : RState, Dice.new 6 (.n 0) s = .error .valueErr) := by
  have hsz : ∀ (k : Int) (s : RState), k < 1 → Die.new (.n k) s = .error .valueErr := by
    intro k s hk
    simp [Die.new, Die.addRoll, hk]
  refine ⟨?_, hsz, rfl, rfl, rfl, ?_⟩
  · intro op l r e
    cases op <;> by_cases hr : r = 0 <;> simp [binNumber, hr] <;> tauto
  · intro s
    rw [Dice.new, show (6 : Nat) = 5 + 1 from rfl, rollDice, hsz 0 s (by omega)]

/-- Witness for the hypotheses of C8 at a concrete input. -/
theorem claim_C8_wit :
    Die.new (.n 0) (mkState (fun _ => 0)) = .error .valueErr :=
  claim_C8.2.1 0 (mkState (fun _ => 0)) (by decide)

end D20
